import Mathlib

/-!
# Verification of the `itp` Instagram caption parser (`itp/itp.py`)

This file gives a shallow embedding of `itp/itp.py` — the pattern library,
the three-pass scan/rewrite engine, the entity disambiguators and the
formatters — and proves or refutes the claims of the specification.

Strings are modelled as `List Char` (Python 3 `str` is a sequence of Unicode
code points, exactly `Char` here).  The regular expressions of the source are
compiled by hand into explicit matchers with Python `re` backtracking
semantics (leftmost match, alternation order, greedy repetition); each
character class below records the exact set of code points the corresponding
Python class matches under the flags used by the source (`re.IGNORECASE`,
plus `re.ASCII` for the username pattern), including the non-obvious
`IGNORECASE` equivalences of CPython (`ı/İ ~ i`, `ſ ~ s`, `K ~ k`, `Å ~ å`,
`Ÿ ~ ÿ`, `ẞ ~ ß`).
-/

namespace Itp

/-- Python strings as lists of Unicode code points. -/
abbrev Str := List Char

/-- `lo ≤ n ∧ n ≤ hi`, as a `Bool`. -/
def inR (lo hi n : Nat) : Bool := Nat.ble lo n && Nat.ble n hi

/-! ## Character classes

Each definition lists the exact code points matched by the corresponding
class of the source pattern library under its compilation flags. -/

/-- Python `\w` under `re.ASCII` (used by `\B` of `USERNAME_REGEX`,
compiled with `re.ASCII | re.IGNORECASE` on Python 3): `[a-zA-Z0-9_]`. -/
def isWordAscii (c : Char) : Bool :=
  let n := c.toNat
  inR 0x30 0x39 n || inR 0x41 0x5A n || n == 0x5F || inR 0x61 0x7A n

/-- `AT_SIGNS = r'[@＠]'`. -/
def isAtSign (c : Char) : Bool :=
  c.toNat == 0x40 || c.toNat == 0xFF20

/-- `[a-z0-9_.]` of `USERNAME_CHARS` under `re.ASCII | re.IGNORECASE`:
plain ASCII `[a-zA-Z0-9_.]`. -/
def isUsernameChar (c : Char) : Bool :=
  let n := c.toNat
  n == 0x2E || inR 0x30 0x39 n || inR 0x41 0x5A n || n == 0x5F || inR 0x61 0x7A n

/-- `[a-z]` of the list-path part of `USERNAME_CHARS` under
`re.ASCII | re.IGNORECASE`: ASCII letters. -/
def isListPathFirst (c : Char) : Bool :=
  let n := c.toNat
  inR 0x41 0x5A n || inR 0x61 0x7A n

/-- `[a-z0-9\x80-\xFF-]` of the list-path part under `re.ASCII | re.IGNORECASE`. -/
def isListPathChar (c : Char) : Bool :=
  let n := c.toNat
  n == 0x2D || inR 0x30 0x39 n || inR 0x41 0x5A n || inR 0x61 0x7A n || inR 0x80 0xFF n

/-- `[0-9A-Z_]` of `HASHTAG_EXP` under Unicode `re.IGNORECASE`:
ASCII alphanumerics and `_`, plus the CPython case equivalences
`İ ı` (U+0130, U+0131, for `i`), `ſ` (U+017F, for `s`) and `K` (U+212A, for `k`). -/
def isTagFirst (c : Char) : Bool :=
  let n := c.toNat
  inR 0x30 0x39 n || inR 0x41 0x5A n || n == 0x5F || inR 0x61 0x7A n ||
  inR 0x130 0x131 n || n == 0x17F || n == 0x212A

/-- `[a-z0-9_]` of `REPLY_REGEX` under Unicode `re.IGNORECASE` — the same
code-point set as `isTagFirst`. -/
def isReplyWord (c : Char) : Bool := isTagFirst c

/-- `UTF_CHARS = r'a-z0-9_À-ÖØ-öø-ÿ'` as a class,
under Unicode `re.IGNORECASE`: the listed ranges, `A-Z`, and the CPython case
equivalences `İ ı ſ K` plus `Ÿ` (U+0178, upper of `ÿ`), `ẞ` (U+1E9E, upper of
`ß`) and `Å` (U+212B, whose lowercase is `å`). -/
def isUtfChar (c : Char) : Bool :=
  let n := c.toNat
  inR 0x30 0x39 n || inR 0x41 0x5A n || n == 0x5F || inR 0x61 0x7A n ||
  inR 0xC0 0xD6 n || inR 0xD8 0xF6 n || inR 0xF8 0xFF n ||
  inR 0x130 0x131 n || n == 0x178 || n == 0x17F || n == 0x1E9E ||
  inR 0x212A 0x212B n

/-- `SPACES = r'[   ᠎ -  ⁠　]'`. -/
def isSpaceSet (c : Char) : Bool :=
  let n := c.toNat
  n == 0x20 || n == 0xA0 || n == 0x1680 || n == 0x180E ||
  inR 0x2002 0x202F n || n == 0x205F || n == 0x2060 || n == 0x3000

/-- Python `\s` in Unicode mode (relevant to `DOMAIN_CHARS`' negated class). -/
def isPySpace (c : Char) : Bool :=
  let n := c.toNat
  inR 0x9 0xD n || inR 0x1C 0x1F n || n == 0x20 || n == 0x85 || n == 0xA0 ||
  n == 0x1680 || inR 0x2000 0x200A n || inR 0x2028 0x2029 n ||
  n == 0x202F || n == 0x205F || n == 0x3000

/-- One repetition of `DOMAIN_CHARS`' group `([\.-]|[^\s_\!\.\/])`: the union
is every character except whitespace, `_`, `!` and `/` (note `.` and `-` are
re-admitted by the first alternative). -/
def isDomainChar (c : Char) : Bool :=
  !(isPySpace c || c.toNat == 0x5F || c.toNat == 0x21 || c.toNat == 0x2F)

/-- `[a-z]` of the top-level-domain part `\.[a-z]{2,}` under Unicode
`re.IGNORECASE`: ASCII letters plus `İ ı ſ K`. -/
def isDomTld (c : Char) : Bool :=
  let n := c.toNat
  inR 0x41 0x5A n || inR 0x61 0x7A n || inR 0x130 0x131 n || n == 0x17F || n == 0x212A

/-- `[0-9]` of the port part. -/
def isDigitCh (c : Char) : Bool := inR 0x30 0x39 c.toNat

/-- `[^/"\':!=]` of `PRE_CHARS`: anything but the six listed characters. -/
def isPreChar (c : Char) : Bool :=
  let n := c.toNat
  !(n == 0x2F || n == 0x22 || n == 0x27 || n == 0x3A || n == 0x21 || n == 0x3D)

/-- The main class of `PATH_CHARS`
(`[UTF_CHARS!\*\'\(\);:=\+\$/%#\[\]\-_,~@]`) under Unicode `re.IGNORECASE`.
Note `.` is not in it (it only occurs in the optional `[\.,]?` prefix). -/
def isPathMain (c : Char) : Bool :=
  let n := c.toNat
  n == 0x21 || inR 0x23 0x25 n || inR 0x27 0x2D n || inR 0x2F 0x3B n ||
  n == 0x3D || inR 0x40 0x5B n || n == 0x5D || n == 0x5F || inR 0x61 0x7A n ||
  n == 0x7E || inR 0xC0 0xD6 n || inR 0xD8 0xF6 n || inR 0xF8 0xFF n ||
  inR 0x130 0x131 n || n == 0x178 || n == 0x17F || n == 0x1E9E ||
  inR 0x212A 0x212B n

/-- `PATH_ENDING_CHARS = r'[UTF_CHARS\)=#/]'` under Unicode `re.IGNORECASE`. -/
def isPathEnd (c : Char) : Bool :=
  let n := c.toNat
  n == 0x23 || n == 0x29 || inR 0x2F 0x39 n || n == 0x3D || inR 0x41 0x5A n ||
  n == 0x5F || inR 0x61 0x7A n ||
  inR 0xC0 0xD6 n || inR 0xD8 0xF6 n || inR 0xF8 0xFF n ||
  inR 0x130 0x131 n || n == 0x178 || n == 0x17F || n == 0x1E9E ||
  inR 0x212A 0x212B n

/-- `QUERY_CHARS = r'[a-z0-9!\*\'\(\);:&=\+\$/%#\[\]\-_\.,~]'` under Unicode
`re.IGNORECASE`. -/
def isQueryChar (c : Char) : Bool :=
  let n := c.toNat
  n == 0x21 || inR 0x23 0x3B n || n == 0x3D || inR 0x41 0x5B n || n == 0x5D ||
  n == 0x5F || inR 0x61 0x7A n || n == 0x7E ||
  inR 0x130 0x131 n || n == 0x17F || n == 0x212A

/-- `QUERY_ENDING_CHARS = '[a-z0-9_&=#]'` under Unicode `re.IGNORECASE`. -/
def isQueryEnd (c : Char) : Bool :=
  let n := c.toNat
  n == 0x23 || n == 0x26 || inR 0x30 0x39 n || n == 0x3D || inR 0x41 0x5A n ||
  n == 0x5F || inR 0x61 0x7A n ||
  inR 0x130 0x131 n || n == 0x17F || n == 0x212A

/-- `(#|＃)` of `HASHTAG_EXP`. -/
def isTagSign (c : Char) : Bool :=
  c.toNat == 0x23 || c.toNat == 0xFF03

/-! ## Python string primitives -/

/-- Greedy bounded repetition: the number of leading characters of `s`
satisfying `p`, at most `bound` (the regex engine's maximal munch for a
class repeated `{0,bound}` / `{0,∞}` when `bound = s.length`). -/
def countWhileUpTo (p : Char → Bool) : Str → Nat → Nat
  | _, 0 => 0
  | [], _ => 0
  | c :: rest, b + 1 => if p c then countWhileUpTo p rest b + 1 else 0

/-- Does `pat` occur as a prefix of `s`? -/
def startsWith : Str → Str → Bool
  | _, [] => true
  | [], _ :: _ => false
  | c :: s, d :: p => c == d && startsWith s p

/-- First index at which `pat` occurs in `s` (Python `str.find` core). -/
def findSubAux (pat : Str) : Str → Option Nat
  | [] => if startsWith [] pat then some 0 else none
  | c :: rest =>
    if startsWith (c :: rest) pat then some 0
    else (findSubAux pat rest).map (· + 1)

/-- Python `s.find(pat)`: first index, or `-1`. -/
def pyFind (s pat : Str) : Int :=
  match findSubAux pat s with
  | some i => Int.ofNat i
  | none => -1

/-- Does `pat` occur anywhere in `s`? -/
def containsSub (s pat : Str) : Bool := (findSubAux pat s).isSome

/-- Index of the last occurrence of the character `c` in `s`, if any. -/
def rfindAux (c : Char) : Str → Option Nat
  | [] => none
  | a :: rest =>
    match rfindAux c rest with
    | some i => some (i + 1)
    | none => if a == c then some 0 else none

/-- Python `s.rfind(c)` for a single character: last index, or `-1`. -/
def pyRFind (s : Str) (c : Char) : Int :=
  match rfindAux c s with
  | some i => Int.ofNat i
  | none => -1

/-- Resolve a Python slice endpoint: negative indices count from the end and
clamp at `0`; non-negative ones clamp at `len`. -/
def pyIdx (len : Nat) (i : Int) : Nat :=
  if i < 0 then (Int.ofNat len + i).toNat else min i.toNat len

/-- Python `s[:i]` (one possibly-negative endpoint). -/
def pySliceTo (s : Str) (i : Int) : Str := s.take (pyIdx s.length i)

/-- Python `s[i:]` (one possibly-negative endpoint). -/
def pySliceFrom (s : Str) (i : Int) : Str := s.drop (pyIdx s.length i)

/-- Python `s[a:b]` for `0 ≤ a ≤ b`: the claims' `text[start:end]`. -/
def pySub (s : Str) (a b : Nat) : Str := (s.drop a).take (b - a)

/-- Python `s.rstrip('.')`. -/
def rstripDot (s : Str) : Str :=
  (s.reverse.dropWhile (fun c => c == '.')).reverse

/-- Core of Python `str.lower`, per character.  Exact on every character the
parser's ASCII-literal comparisons can be sensitive to: the only code points
whose Python lowercase contains an ASCII character are `A`-`Z`, `İ` (U+0130,
lowering to `i` followed by U+0307 — the only length-changing lowercase in
Unicode) and `K` (U+212A, lowering to `k`); the Latin-1 range and its
uppercase partners are also mapped exactly.  Other characters are kept
unchanged, which never changes the outcome of the source's uses of `lower()`
(finding `'www'` and comparing against ASCII literals), since no other
character lowers into ASCII. -/
def pyLowerChar (c : Char) : Str :=
  let n := c.toNat
  if inR 0x41 0x5A n then [Char.ofNat (n + 0x20)]
  else if inR 0xC0 0xDE n && !(n == 0xD7) then [Char.ofNat (n + 0x20)]
  else if n == 0x130 then [Char.ofNat 0x69, Char.ofNat 0x307]
  else if n == 0x178 then [Char.ofNat 0xFF]
  else if n == 0x1E9E then [Char.ofNat 0xDF]
  else if n == 0x212A then [Char.ofNat 0x6B]
  else if n == 0x212B then [Char.ofNat 0xE5]
  else [c]

/-- Python `s.lower()`. -/
def pyLower (s : Str) : Str := (s.map pyLowerChar).flatten

/-- `escape`: the five-entity HTML escaper at the bottom of the source. -/
def escapeChar (c : Char) : Str :=
  if c == '&' then "&amp;".data
  else if c == '"' then "&quot;".data
  else if c == '\'' then "&apos;".data
  else if c == '>' then "&gt;".data
  else if c == '<' then "&lt;".data
  else [c]

/-- `escape(text)`. -/
def escape (s : Str) : Str := (s.map escapeChar).flatten

/-- UTF-8 encoding of one code point (Python `str.encode('utf-8')`). -/
def utf8Bytes (c : Char) : List Nat :=
  let n := c.toNat
  if n < 0x80 then [n]
  else if n < 0x800 then [0xC0 + n / 0x40, 0x80 + n % 0x40]
  else if n < 0x10000 then
    [0xE0 + n / 0x1000, 0x80 + n / 0x40 % 0x40, 0x80 + n % 0x40]
  else
    [0xF0 + n / 0x40000, 0x80 + n / 0x1000 % 0x40,
     0x80 + n / 0x40 % 0x40, 0x80 + n % 0x40]

/-- Uppercase hexadecimal digit. -/
def hexDigit (n : Nat) : Char :=
  if n < 10 then Char.ofNat (0x30 + n) else Char.ofNat (0x37 + n)

/-- Bytes `urllib.parse.quote` leaves unescaped with its default
`safe='/'`: ASCII alphanumerics, `_.-~` and `/`. -/
def quoteSafe (b : Nat) : Bool :=
  inR 0x30 0x39 b || inR 0x41 0x5A b || inR 0x61 0x7A b ||
  b == 0x5F || b == 0x2E || b == 0x2D || b == 0x7E || b == 0x2F

/-- One byte, percent-encoded unless safe. -/
def quoteByte (b : Nat) : Str :=
  if quoteSafe b then [Char.ofNat b] else ['%', hexDigit (b / 16), hexDigit (b % 16)]

/-- `quote(text.encode('utf-8'))` as used by `format_tag`. -/
def pyQuote (s : Str) : Str :=
  (((s.map utf8Bytes).flatten).map quoteByte).flatten

/-! ## The reply pattern

`REPLY_REGEX = ^(?:SPACES)*AT_SIGNS([a-z0-9_]{1,20}).*` with `re.IGNORECASE`,
applied with `.match` (anchored at the start).  `(?:SPACES)*` is a greedy run
of space-set characters; since no space-set character is an at-sign, its
maximal munch is forced, and `.*` always succeeds, so the whole match is
deterministic.  The result is capture group 1. -/

/-- The captured group of `REPLY_REGEX.match(text)`, if the regex matches. -/
def replyMatch (t : Str) : Option Str :=
  let rest := t.dropWhile isSpaceSet
  match rest with
  | [] => none
  | c :: r2 =>
    if isAtSign c then
      let k := countWhileUpTo isReplyWord r2 20
      if k == 0 then none else some (r2.take k)
    else none

/-! ## The username pattern

`USERNAME_REGEX = \B[@＠]([a-z0-9_.]{1,30})(/[a-z][a-z0-9\x80-\xFF-]{0,79})?`
with `re.ASCII | re.IGNORECASE`.  The next character after `\B` must be an
at-sign (a non-word character), so `\B` holds exactly when the position is
the string start or the previous character is not an ASCII word character.
`{1,30}` is greedy; the optional list-path group can always match empty, so
no backtracking into the name ever happens. -/

/-- A match of `USERNAME_REGEX`: length of group 1 (the name characters) and,
when group 2 (the `/list` path) participates, its length. -/
structure UserM where
  ulen : Nat
  plen : Option Nat
  deriving DecidableEq, Repr

/-- Total length of the match (`group(0)`), including the at-sign. -/
def UserM.len (m : UserM) : Nat := 1 + m.ulen + (m.plen.getD 0)

/-- Match `USERNAME_REGEX` at absolute position `p` of `t`. -/
def userMatchAt (t : Str) (p : Nat) : Option UserM :=
  -- \B: not at a word boundary
  if p ≠ 0 && ((t.drop (p - 1)).headD ' ' |> isWordAscii) then none
  else
    match t.drop p with
    | [] => none
    | c :: rest =>
      if isAtSign c then
        let k := countWhileUpTo isUsernameChar rest 30
        if k == 0 then none
        else
          let rest2 := rest.drop k
          let pl : Option Nat :=
            match rest2 with
            | '/' :: d :: rest3 =>
              if isListPathFirst d then
                some (2 + countWhileUpTo isListPathChar rest3 79)
              else none
            | _ => none
          some ⟨k, pl⟩
      else none

/-! ## The hashtag pattern

`HASHTAG_REGEX = (#|＃)([0-9A-Z_]+[UTF_CHARS]*)` with `re.IGNORECASE`.
Both repetitions are greedy over single-character classes with nothing
mandatory after them, so maximal munch is exact. -/

/-- Match `HASHTAG_REGEX` at position `p` of `t`; returns the length of
`group(0)`. -/
def tagMatchAt (t : Str) (p : Nat) : Option Nat :=
  match t.drop p with
  | [] => none
  | c :: rest =>
    if isTagSign c then
      let a := countWhileUpTo isTagFirst rest rest.length
      if a == 0 then none
      else
        let b := countWhileUpTo isUtfChar (rest.drop a) (rest.drop a).length
        some (1 + a + b)
    else none

/-! ## The URL pattern

```
URL_REGEX = ((PRE_CHARS)((https?://|www\.)(DOMAIN_CHARS)
             (\/(PATH_CHARS*PATH_ENDING_CHARS)?)?(\?QUERY_CHARS*QUERY_ENDING_CHARS)?))
```
with `re.IGNORECASE`, where `PRE_CHARS = (?:[^/"\':!=]|^|\:)` and
`DOMAIN_CHARS = ([\.-]|[^\s_\!\.\/])+\.[a-z]{2,}(?::[0-9]+)?`.

Backtracking structure, following the `sre` engine:
* the `PRE` alternatives are tried in order: one allowed character, then the
  empty match at string start, then a literal `:`;
* the scheme alternatives are `https://`, `http://` (the greedy `s?`), then
  `www.`, matched case-insensitively — the literal `s` also matches `ſ`
  (U+017F), a CPython `IGNORECASE` equivalence;
* the domain's `X+` is greedy and backtracks downwards until `\.[a-z]{2,}`
  (then an optional port) matches; everything after the domain is optional,
  so the first success is final;
* the path is `/` followed by an optional greedy `PATH_CHARS*` that must end
  on a path-ending character; each `PATH_CHARS` unit is an optional `.`/`,`
  followed by a main-class character, preferring the two-character form;
* the query is `?` followed by a greedy `QUERY_CHARS*` that must end on a
  query-ending character; if that body fails the whole query group is empty
  (the `?` is not consumed). -/

/-- Case-insensitive match of one ASCII pattern character, with the CPython
Unicode-`IGNORECASE` special case for the literal `s` (matching `ſ`). -/
def ciCharEq (lit c : Char) : Bool :=
  if inR 0x61 0x7A lit.toNat then
    c == lit || c.toNat == lit.toNat - 0x20 ||
      (lit == 's' && c.toNat == 0x17F)
  else c == lit

/-- Case-insensitive prefix test against an ASCII literal pattern. -/
def ciStartsWith : Str → Str → Bool
  | _, [] => true
  | [], _ :: _ => false
  | c :: s, d :: p => ciCharEq d c && ciStartsWith s p

/-- The scheme alternation `(https?://|www\.)`: consumed length, if any. -/
def schemeAt (s : Str) : Option Nat :=
  if ciStartsWith s "https://".data then some 8
  else if ciStartsWith s "http://".data then some 7
  else if ciStartsWith s "www.".data then some 4
  else none

/-- Backtracking for the domain: try `X+`-lengths `k, k-1, …, 1`, each time
requiring `\.` then at least two TLD letters, then an optional port.  Returns
the total length of `group(5)` (domain including port). -/
def domBack (s : Str) : Nat → Option Nat
  | 0 => none
  | k + 1 =>
    (match s.drop (k + 1) with
     | '.' :: r2 =>
       let l := countWhileUpTo isDomTld r2 r2.length
       if 2 ≤ l then
         let r3 := r2.drop l
         let port : Nat :=
           match r3 with
           | ':' :: r4 =>
             let d := countWhileUpTo isDigitCh r4 r4.length
             if d == 0 then 0 else 1 + d
           | _ => 0
         some (k + 1 + 1 + l + port)
       else none
     | _ => none)
    <|> domBack s k

/-- `DOMAIN_CHARS` at the start of `s`: length of `group(5)`, if it matches. -/
def domParse (s : Str) : Option Nat :=
  domBack s (countWhileUpTo isDomainChar s s.length)

/-- Greedy `PATH_CHARS* PATH_ENDING_CHARS` at the start of a string, with
`sre` backtracking order (two-character unit, one-character unit, then stop
the star and demand a path-ending character). -/
def pathTailF : Nat → Str → Option Nat
  | 0, _ => none
  | _, [] => none
  | f + 1, c1 :: rest =>
    (if c1 == '.' || c1 == ',' then
       match rest with
       | c2 :: rest2 =>
         if isPathMain c2 then (pathTailF f rest2).map (· + 2) else none
       | [] => none
     else none)
    <|> (if isPathMain c1 then (pathTailF f rest).map (· + 1) else none)
    <|> (if isPathEnd c1 then some 1 else none)

/-- The optional path group `(\/(PATH_CHARS*PATH_ENDING_CHARS)?)?`:
consumed length (`0` when absent). -/
def pathParse (s : Str) : Nat :=
  match s with
  | '/' :: rest =>
    match pathTailF rest.length rest with
    | some n => 1 + n
    | none => 1
  | _ => 0

/-- Greedy `QUERY_CHARS* QUERY_ENDING_CHARS` with backtracking. -/
def queryTail : Str → Option Nat
  | [] => none
  | c :: rest =>
    (if isQueryChar c then (queryTail rest).map (· + 1) else none)
    <|> (if isQueryEnd c then some 1 else none)

/-- The optional query group `(\?QUERY_CHARS*QUERY_ENDING_CHARS)?`:
consumed length (`0` when absent — the `?` is not consumed if the body
cannot match). -/
def queryParse (s : Str) : Nat :=
  match s with
  | '?' :: rest =>
    match queryTail rest with
    | some n => 1 + n
    | none => 0
  | _ => 0

/-- A match of `URL_REGEX`, by component lengths.  `group(0)` is the
`len`-length slice at the match position; `group(5)` (the domain) is the
`domLen`-length slice after the pre-character and scheme. -/
structure UrlM where
  preLen : Nat
  schemeLen : Nat
  domLen : Nat
  pathLen : Nat
  queryLen : Nat
  deriving DecidableEq, Repr

/-- Length of `group(0)` of a URL match. -/
def UrlM.len (m : UrlM) : Nat :=
  m.preLen + m.schemeLen + m.domLen + m.pathLen + m.queryLen

/-- Scheme, domain, path and query at absolute position `q` (everything
after the pre-character). -/
def urlRestAt (t : Str) (q : Nat) (preLen : Nat) : Option UrlM :=
  let s := t.drop q
  match schemeAt s with
  | none => none
  | some sl =>
    match domParse (s.drop sl) with
    | none => none
    | some dl =>
      let s2 := s.drop (sl + dl)
      let pl := pathParse s2
      let ql := queryParse (s2.drop pl)
      some ⟨preLen, sl, dl, pl, ql⟩

/-- Match `URL_REGEX` at absolute position `p` of `t`, trying the `PRE`
alternatives in `sre` order. -/
def urlMatchAt (t : Str) (p : Nat) : Option UrlM :=
  (match (t.drop p).head? with
   | some c => if isPreChar c then urlRestAt t (p + 1) 1 else none
   | none => none)
  <|> (if p == 0 then urlRestAt t p 0 else none)
  <|> (match (t.drop p).head? with
       | some c => if c == ':' then urlRestAt t (p + 1) 1 else none
       | none => none)

/-! ## The scan/rewrite engine

`re.sub(repl, text)` with a function: scan left to right; at each position
try the pattern; on a match, call `repl` (which records entities as a side
effect and returns the replacement) and continue after the match; otherwise
copy one character.  All three patterns only produce non-empty matches, so
`fuel = t.length + 1` iterations always suffice. -/

/-- One extracted entity: its text and, when spans are enabled, its
`(start, end)` span. -/
abbrev Entity := Str × Option (Nat × Nat)

/-- The generic scan-and-substitute loop.  `matchAt` returns the total match
length and the match data; `step` maps the match to the recorded entity (if
any) and the replacement text. -/
def scanSub (matchAt : Str → Nat → Option (Nat × α))
    (step : Str → Nat → α → Option Entity × Str)
    (t : Str) : Nat → Nat → List Entity × Str
  | 0, pos => ([], t.drop pos)
  | f + 1, pos =>
    match matchAt t pos with
    | none =>
      let r := scanSub matchAt step t f (pos + 1)
      (r.1, (t.drop pos).take 1 ++ r.2)
    | some (n, a) =>
      let sr := step t pos a
      let r := scanSub matchAt step t f (pos + n)
      (sr.1.toList ++ r.1, sr.2 ++ r.2)

/-- Run one full pass over `t`. -/
def runPass (matchAt : Str → Nat → Option (Nat × α))
    (step : Str → Nat → α → Option Entity × Str) (t : Str) :
    List Entity × Str :=
  scanSub matchAt step t (t.length + 1) 0

/-! ## The parser

`Parser(max_url_length=30, include_spans=False)` and its methods.  One
modelling note used throughout: the source tests `if self._html:` inside the
three `_parse_*` callbacks, but `_html` is the *bound method* `Parser._html`,
which is always truthy — so those branches are always taken (they build the
replacement string; `Parser._text` simply discards the substituted output).
The embedding therefore always computes the replacement. -/

/-- The engine configuration (`max_url_length`, `include_spans`). -/
structure Cfg where
  maxUrlLength : Int
  includeSpans : Bool
  deriving DecidableEq, Repr

/-- The default configuration `Parser()`. -/
def defaultCfg : Cfg := ⟨30, false⟩

/-- `IANA_ONE_LETTER_DOMAINS`. -/
def ianaOneLetterDomains : List Str :=
  ["x.com".data, "x.org".data, "z.com".data, "q.net".data, "q.com".data,
   "i.net".data]

/-- `Parser._parse_username(string)`: the username disambiguator.  Returns
`none` for the rejection path (`return None, None`); the source is never
called with an empty string (group 1 has at least one character), and an
empty string would raise in Python (`string[0]`), so the embedding maps it
to rejection as well. -/
def parseUsername (s : Str) : Option (Str × Str) :=
  match s.head? with
  | none => none
  | some c =>
    if c == '.' then none
    else
      -- strip dots from the end (`string.rstrip('.')`); the
      -- `len(stripped) is not len(string)` guard compares small ints, where
      -- CPython `is` agrees with equality (and the branch is a no-op when
      -- the lengths are equal)
      let stripped := rstripDot s
      let p : Str × Str :=
        if stripped.length != s.length then (s.drop stripped.length, stripped)
        else ([], s)
      let extra := p.1
      let s1 := p.2
      -- cut at the first occurrence of '..' when its index is positive
      let idx := pyFind s1 "..".data
      if 0 < idx then some (pySliceTo s1 idx, extra ++ pySliceFrom s1 idx)
      else some (s1, extra)

/-- The truncation branch of `Parser._shorten_url`, applied to the already
sliced `text[0:max_url_length-3]`: retract the cut to just before the last
`&` when `amp != -1 and (close == -1 or close < amp)`, then append `...`. -/
def shortenCut (t : Str) : Str :=
  if pyRFind t '&' ≠ -1 ∧ (pyRFind t ';' = -1 ∨ pyRFind t ';' < pyRFind t '&')
  then pySliceTo t (pyRFind t '&') ++ "...".data
  else t ++ "...".data

/-- `Parser._shorten_url(text)`. -/
def shortenUrl (cfg : Cfg) (text : Str) : Str :=
  if Int.ofNat text.length > cfg.maxUrlLength ∧ cfg.maxUrlLength ≠ -1 then
    shortenCut (pySliceTo text (cfg.maxUrlLength - 3))
  else text

/-- `Parser.format_tag(tag, text)`.  `tag` is `None` (rendered by `%s` as
the text `None`) or a one-character string. -/
def formatTag (tag : Option Char) (text : Str) : Str :=
  "<a href=\"https://instagram.com/explore/tags/".data ++ pyQuote text ++
  "/\">".data ++ (match tag with | some c => [c] | none => "None".data) ++
  text ++ "</a>".data

/-- `Parser.format_username(at_char, user)`. -/
def formatUsername (atChar : Str) (user : Str) : Str :=
  "<a href=\"https://instagram.com/".data ++ user ++ "\">".data ++
  atChar ++ user ++ "</a>".data

/-- `Parser.format_url(url, text)`. -/
def formatUrl (url : Str) (text : Str) : Str :=
  "<a href=\"".data ++ escape url ++ "\">".data ++ text ++ "</a>".data

/-- The domain-rejection tests of `Parser._parse_urls`: leading `.`/`-`, and
unregistered five-character one-letter `.com`/`.org`/`.net` domains. -/
def urlDomainRejected (domain : Str) : Bool :=
  (domain.headD ' ' == '.' || domain.headD ' ' == '-') ||
  (domain.length == 5 &&
   ([".com".data, ".org".data, ".net".data].contains
      (pyLower (pySliceFrom domain (-4)))) &&
   !(ianaOneLetterDomains.contains (pyLower domain)))

/-- The `pre`/`url`/`full_url` split of `Parser._parse_urls`: locate `http`
(case-sensitively); failing that, locate `www` in the lowercased match and
synthesize `https://`.  The find index may be `-1`, in which case the Python
slices `mat[:pos]`/`mat[pos:]` take all but / exactly the last character. -/
def urlSplit (mat : Str) : Str × Str × Str :=
  let fpos := pyFind mat "http".data
  if fpos ≠ -1 then (pySliceTo mat fpos, pySliceFrom mat fpos, pySliceFrom mat fpos)
  else
    let wpos := pyFind (pyLower mat) "www".data
    (pySliceTo mat wpos, pySliceFrom mat wpos,
     "https://".data ++ pySliceFrom mat wpos)

/-- `Parser._parse_urls(match)`: entity recorded (if any) and replacement. -/
def urlStep (cfg : Cfg) (t : Str) (pos : Nat) (m : UrlM) : Option Entity × Str :=
  let mat := (t.drop pos).take m.len
  let domain := (t.drop (pos + m.preLen + m.schemeLen)).take m.domLen
  if urlDomainRejected domain then (none, mat)
  else
    let s := urlSplit mat
    let pre := s.1
    let url := s.2.1
    let fullUrl := s.2.2
    let ent : Entity :=
      if cfg.includeSpans then (url, some (pos + pre.length, pos + m.len))
      else (url, none)
    (some ent, pre ++ formatUrl fullUrl (shortenUrl cfg (escape url)))

/-- `Parser._parse_users(match)`: list-style mentions (`group(2)`) pass
through; otherwise the candidate `mat[1:]` goes through the disambiguator,
and falsy results (`None` or empty) pass through. -/
def userStep (cfg : Cfg) (t : Str) (pos : Nat) (m : UserM) : Option Entity × Str :=
  let mat := (t.drop pos).take m.len
  if m.plen.isSome then (none, mat)
  else
    match parseUsername (mat.drop 1) with
    | none => (none, mat)
    | some (u, extra) =>
      if u.isEmpty then (none, mat)
      else
        let ent : Entity :=
          if cfg.includeSpans then (u, some (pos, pos + m.len)) else (u, none)
        (some ent, formatUsername (mat.take 1) u ++ extra)

/-- `Parser._parse_tags(match)`: find the rightmost `#`, else the rightmost
`＃` (`for i in '#＃': pos = mat.rfind(i); if pos != -1: … break`); split the
match there, record the text after the sign, and offset the span start by
the prefix length. -/
def tagStep (cfg : Cfg) (t : Str) (pos : Nat) (n : Nat) : Option Entity × Str :=
  let mat := (t.drop pos).take n
  let p1 := pyRFind mat '#'
  let tr : Option Char × Int :=
    if p1 ≠ -1 then (some '#', p1)
    else
      let p2 := pyRFind mat (Char.ofNat 0xFF03)
      if p2 ≠ -1 then (some (Char.ofNat 0xFF03), p2) else (none, p2)
  let pre := pySliceTo mat tr.2
  let txt := pySliceFrom mat (tr.2 + 1)
  let ent : Entity :=
    if cfg.includeSpans then (txt, some (pos + pre.length, pos + n)) else (txt, none)
  (some ent, pre ++ formatTag tr.1 txt)

/-- The URL pass (`URL_REGEX.sub(self._parse_urls, text)`). -/
def subUrls (cfg : Cfg) (t : Str) : List Entity × Str :=
  runPass (fun t p => (urlMatchAt t p).map (fun m => (m.len, m))) (urlStep cfg) t

/-- The username pass (`USERNAME_REGEX.sub(self._parse_users, text)`). -/
def subUsers (cfg : Cfg) (t : Str) : List Entity × Str :=
  runPass (fun t p => (userMatchAt t p).map (fun m => (m.len, m))) (userStep cfg) t

/-- The hashtag pass (`HASHTAG_REGEX.sub(self._parse_tags, text)`). -/
def subTags (cfg : Cfg) (t : Str) : List Entity × Str :=
  runPass (fun t p => (tagMatchAt t p).map (fun n => (n, n))) (fun t p n => tagStep cfg t p n) t

/-- The output bundle (`ParseResult`); `html` is `none` when HTML was not
requested (`_text` returns `None`). -/
structure ParseResult where
  urls : List Entity
  users : List Entity
  reply : Option Str
  tags : List Entity
  html : Option Str
  deriving DecidableEq, Repr

/-- `ParseResult.__init__`'s `reply if reply else None` (an empty string is
falsy). -/
def normReply (r : Option Str) : Option Str :=
  match r with
  | some l => if l.isEmpty then none else some l
  | none => none

/-- `Parser.parse(text, html)`: reply detection on the raw text, then either
the chained HTML pipeline (`_html`: each pass consumes the previous pass's
output) or three independent passes over the original text (`_text`,
returning `None` for the html field). -/
def parse (cfg : Cfg) (t : Str) (html : Bool) : ParseResult :=
  let reply := replyMatch t
  if html then
    let u := subUrls cfg t
    let n := subUsers cfg u.2
    let g := subTags cfg n.2
    ⟨u.1, n.1, normReply reply, g.1, some g.2⟩
  else
    ⟨(subUrls cfg t).1, (subUsers cfg t).1, normReply reply,
     (subTags cfg t).1, none⟩

/-! ## Lemma library: string searching -/

theorem startsWith_length_le {s pat : Str} (h : startsWith s pat = true) :
    pat.length ≤ s.length := by
  induction pat generalizing s with
  | nil => simp
  | cons d p ih =>
    cases s with
    | nil => simp [startsWith] at h
    | cons c s' =>
      simp only [startsWith, Bool.and_eq_true] at h
      simpa [Nat.succ_le_succ_iff] using ih h.2

theorem startsWith_of_take {l pat : Str} {n : Nat}
    (h : startsWith (l.take n) pat = true) : startsWith l pat = true := by
  induction pat generalizing l n with
  | nil => simp [startsWith]
  | cons d p ih =>
    cases n with
    | zero => simp [startsWith] at h
    | succ n' =>
      cases l with
      | nil => simpa using h
      | cons c l' =>
        simp only [List.take, startsWith, Bool.and_eq_true] at h ⊢
        exact ⟨h.1, ih h.2⟩

theorem startsWith_get? {l : Str} {j : Nat} {c₁ c₂ : Char}
    (h : startsWith (l.drop j) [c₁, c₂] = true) :
    l[j]? = some c₁ ∧ l[j + 1]? = some c₂ := by
  have h1 : l[j]? = (l.drop j)[0]? := by simp [List.getElem?_drop]
  have h2 : l[j + 1]? = (l.drop j)[1]? := by simp [List.getElem?_drop]
  rcases hd : l.drop j with _ | ⟨x, _ | ⟨y, r⟩⟩ <;> rw [hd] at h
  · simp [startsWith] at h
  · simp [startsWith] at h
  · simp only [startsWith, Bool.and_eq_true, beq_iff_eq] at h
    obtain ⟨hx, hy, -⟩ := h
    subst hx hy
    rw [h1, h2, hd]
    constructor <;> simp

theorem get?_startsWith {l : Str} {j : Nat} {c₁ c₂ : Char}
    (h1 : l[j]? = some c₁) (h2 : l[j + 1]? = some c₂) :
    startsWith (l.drop j) [c₁, c₂] = true := by
  have e1 : l[j]? = (l.drop j)[0]? := by simp [List.getElem?_drop]
  have e2 : l[j + 1]? = (l.drop j)[1]? := by simp [List.getElem?_drop]
  rw [e1] at h1
  rw [e2] at h2
  rcases hd : l.drop j with _ | ⟨x, _ | ⟨y, r⟩⟩ <;> rw [hd] at h1 h2 <;>
    simp_all [startsWith]

theorem findSubAux_startsWith {pat s : Str} {i : Nat}
    (h : findSubAux pat s = some i) : startsWith (s.drop i) pat = true := by
  induction s generalizing i with
  | nil =>
    simp only [findSubAux] at h
    split at h
    · cases h; simpa
    · exact absurd h (by simp)
  | cons c rest ih =>
    simp only [findSubAux] at h
    split at h
    · cases h; simpa
    · obtain ⟨j, hj, rfl⟩ := Option.map_eq_some'.1 h
      simpa using ih hj

theorem findSubAux_min {pat s : Str} {i : Nat}
    (h : findSubAux pat s = some i) :
    ∀ j, j < i → startsWith (s.drop j) pat = false := by
  induction s generalizing i with
  | nil =>
    simp only [findSubAux] at h
    split at h
    · cases h; omega
    · exact absurd h (by simp)
  | cons c rest ih =>
    simp only [findSubAux] at h
    split at h
    · cases h; omega
    · rename_i hns
      rw [Bool.not_eq_true] at hns
      obtain ⟨j', hj', rfl⟩ := Option.map_eq_some'.1 h
      intro j hj
      cases j with
      | zero => simpa using hns
      | succ j0 => simpa using ih hj' j0 (by omega)

theorem findSubAux_none {pat s : Str} (h : findSubAux pat s = none) :
    ∀ j, startsWith (s.drop j) pat = false := by
  induction s with
  | nil =>
    simp only [findSubAux] at h
    split at h
    · exact absurd h (by simp)
    · rename_i hns
      rw [Bool.not_eq_true] at hns
      intro j
      simpa [List.drop_eq_nil_of_le (by simp : List.length [] ≤ j)] using hns
  | cons c rest ih =>
    simp only [findSubAux] at h
    split at h
    · exact absurd h (by simp)
    · rename_i hns
      rw [Bool.not_eq_true] at hns
      intro j
      cases j with
      | zero => simpa using hns
      | succ j0 =>
        have := ih (by
          rcases hfa : findSubAux pat rest with _ | v
          · rfl
          · rw [hfa] at h; simp at h)
        simpa using this j0

theorem containsSub_exists {s pat : Str} (h : containsSub s pat = true) :
    ∃ i, startsWith (s.drop i) pat = true := by
  unfold containsSub at h
  rcases hf : findSubAux pat s with _ | i
  · rw [hf] at h; simp at h
  · exact ⟨i, findSubAux_startsWith hf⟩

theorem containsSub_of_startsWith {s pat : Str} {i : Nat}
    (h : startsWith (s.drop i) pat = true) : containsSub s pat = true := by
  unfold containsSub
  rcases hf : findSubAux pat s with _ | j
  · exact absurd h (by simp [findSubAux_none hf i])
  · simp

theorem rfindAux_none {c : Char} {l : Str} (h : ∀ x ∈ l, x ≠ c) :
    rfindAux c l = none := by
  induction l with
  | nil => rfl
  | cons a r ih =>
    simp only [rfindAux]
    rw [ih (fun x hx => h x (by simp [hx]))]
    have : (a == c) = false := by
      have := h a (by simp)
      simpa using this
    simp [this]

theorem rfindAux_mem_none {c : Char} {l : Str} (hmem : c ∈ l) :
    rfindAux c l ≠ none := by
  induction l with
  | nil => simp at hmem
  | cons b rb ihb =>
    simp only [rfindAux]
    rcases hb : rfindAux c rb with _ | v
    · rcases List.mem_cons.1 hmem with h1 | h2
      · simp [h1]
      · exact absurd hb (ihb h2)
    · simp

theorem rfindAux_last {c : Char} {l : Str} {i : Nat}
    (h : rfindAux c l = some i) :
    l[i]? = some c ∧ ∀ k, i < k → l[k]? ≠ some c := by
  induction l generalizing i with
  | nil => simp [rfindAux] at h
  | cons a r ih =>
    rcases hr : rfindAux c r with _ | j
    · simp only [rfindAux, hr] at h
      split at h
      · rename_i hac
        cases h
        refine ⟨by simpa using (beq_iff_eq.1 hac), ?_⟩
        intro k hk
        cases k with
        | zero => omega
        | succ k0 =>
          simp only [List.getElem?_cons_succ]
          intro hget
          exact rfindAux_mem_none (List.getElem?_mem hget) hr
      · simp at h
    · simp only [rfindAux, hr] at h
      cases h
      obtain ⟨h1, h2⟩ := ih hr
      refine ⟨by simpa using h1, ?_⟩
      intro k hk
      cases k with
      | zero => omega
      | succ k0 => simpa using h2 k0 (by omega)

theorem rfindAux_spec {c : Char} {l : Str} {j : Nat}
    (h1 : l[j]? = some c) (h2 : ∀ k, j < k → l[k]? ≠ some c) :
    rfindAux c l = some j := by
  induction l generalizing j with
  | nil => simp at h1
  | cons a r ih =>
    cases j with
    | zero =>
      simp only [List.getElem?_cons_zero, Option.some_inj] at h1
      have hr : rfindAux c r = none := by
        apply rfindAux_none
        intro x hx hxc
        obtain ⟨k, hk, he⟩ := List.getElem_of_mem hx
        have : r[k]? = some c := by
          rw [List.getElem?_eq_getElem hk, he, hxc]
        exact h2 (k + 1) (by omega) (by simpa using this)
      simp [rfindAux, hr, h1]
    | succ j0 =>
      simp only [List.getElem?_cons_succ] at h1
      have hr : rfindAux c r = some j0 :=
        ih h1 (fun k hk => by simpa using h2 (k + 1) (by omega))
      simp [rfindAux, hr]

/-! ## Lemma library: bounded greedy counting -/

theorem countWhileUpTo_le_length (p : Char → Bool) :
    ∀ (s : Str) (b : Nat), countWhileUpTo p s b ≤ s.length := by
  intro s
  induction s with
  | nil => intro b; cases b <;> simp [countWhileUpTo]
  | cons c r ih =>
    intro b
    cases b with
    | zero => simp [countWhileUpTo]
    | succ b0 =>
      simp only [countWhileUpTo]
      split
      · simpa [Nat.succ_le_succ_iff] using ih b0
      · simp

theorem countWhileUpTo_le_bound (p : Char → Bool) :
    ∀ (s : Str) (b : Nat), countWhileUpTo p s b ≤ b := by
  intro s
  induction s with
  | nil => intro b; cases b <;> simp [countWhileUpTo]
  | cons c r ih =>
    intro b
    cases b with
    | zero => simp [countWhileUpTo]
    | succ b0 =>
      simp only [countWhileUpTo]
      split
      · simpa [Nat.succ_le_succ_iff] using ih b0
      · simp

theorem countWhileUpTo_take (p : Char → Bool) :
    ∀ (s : Str) (b : Nat) (c : Char), c ∈ s.take (countWhileUpTo p s b) →
      p c = true := by
  intro s
  induction s with
  | nil => intro b c h; simp at h
  | cons a r ih =>
    intro b c h
    cases b with
    | zero => simp [countWhileUpTo] at h
    | succ b0 =>
      simp only [countWhileUpTo] at h
      split at h
      · rcases List.mem_cons.1 (by simpa using h) with h1 | h2
        · subst h1; assumption
        · exact ih b0 c h2
      · simp at h

theorem countWhileUpTo_next (p : Char → Bool) :
    ∀ (s : Str) (b : Nat), countWhileUpTo p s b < b →
      ∀ c, (s.drop (countWhileUpTo p s b)).head? = some c → p c = false := by
  intro s
  induction s with
  | nil => intro b _ c h; simp at h
  | cons a r ih =>
    intro b hb c h
    cases b with
    | zero => omega
    | succ b0 =>
      simp only [countWhileUpTo] at hb h ⊢
      split at h
      · rename_i hp
        simp only [List.drop_succ_cons] at h
        have hb' : countWhileUpTo p r b0 < b0 := by
          simp only [countWhileUpTo, hp, if_true] at hb
          omega
        exact ih b0 hb' c h
      · rename_i hp
        simp only [List.drop_zero, List.head?_cons, Option.some_inj] at h
        subst h
        simpa using hp

theorem countWhileUpTo_spec (p : Char → Bool) (u r : Str) (b : Nat)
    (hall : ∀ c ∈ u, p c = true) (hle : u.length ≤ b)
    (hmax : u.length = b ∨ ∀ c, r.head? = some c → p c = false) :
    countWhileUpTo p (u ++ r) b = u.length := by
  induction u generalizing b with
  | nil =>
    simp only [List.nil_append, List.length_nil]
    rcases hmax with h | h
    · have hb : b = 0 := by simpa using h.symm
      subst hb
      cases r <;> simp [countWhileUpTo]
    · cases b with
      | zero => cases r <;> simp [countWhileUpTo]
      | succ b0 =>
        cases r with
        | nil => simp [countWhileUpTo]
        | cons c rr =>
          have := h c rfl
          simp [countWhileUpTo, this]
  | cons a u0 ih =>
    cases b with
    | zero => simp at hle
    | succ b0 =>
      have ha : p a = true := hall a (by simp)
      simp only [List.cons_append, countWhileUpTo, ha, if_true, List.length_cons]
      have : countWhileUpTo p (u0 ++ r) b0 = u0.length :=
        ih b0 (fun c hc => hall c (by simp [hc])) (by simpa using hle)
          (by rcases hmax with h | h
              · left; simpa using h
              · right; exact h)
      have h2 : countWhileUpTo p (List.append u0 r) b0 = u0.length := this
      omega

/-! ## Lemma library: dot stripping and slicing -/

theorem head?_dropWhile_not {p : Char → Bool} {l : Str} {c : Char}
    (h : (l.dropWhile p).head? = some c) : p c = false := by
  induction l with
  | nil => simp at h
  | cons a r ih =>
    rw [List.dropWhile_cons] at h
    split at h
    · exact ih h
    · rename_i hpa
      rw [Bool.not_eq_true] at hpa
      simp only [List.head?_cons, Option.some_inj] at h
      subst h
      exact hpa

theorem rstripDot_eq (s : Str) :
    s = rstripDot s ++ (s.reverse.takeWhile (fun c => c == '.')).reverse := by
  have h0 := List.takeWhile_append_dropWhile (fun c => c == '.') s.reverse
  calc s = s.reverse.reverse := (List.reverse_reverse s).symm
    _ = (s.reverse.takeWhile (fun c => c == '.') ++
          s.reverse.dropWhile (fun c => c == '.')).reverse := by rw [h0]
    _ = _ := by rw [List.reverse_append]; rfl

theorem rstripDot_decomp (s : Str) :
    ∃ d, s = rstripDot s ++ d ∧ (∀ c ∈ d, c = '.') ∧
      d = s.drop (rstripDot s).length := by
  refine ⟨(s.reverse.takeWhile (fun c => c == '.')).reverse, rstripDot_eq s,
    ?_, ?_⟩
  · intro x hx
    have hx2 : x ∈ s.reverse.takeWhile (fun cc => cc == '.') :=
      List.mem_reverse.1 hx
    have hx3 := List.mem_takeWhile_imp hx2
    exact beq_iff_eq.1 hx3
  · have h := rstripDot_eq s
    have h2 := List.drop_left (rstripDot s)
      ((s.reverse.takeWhile (fun c => c == '.')).reverse)
    rw [← h] at h2
    exact h2.symm

theorem rstripDot_getLast {s : Str} {c : Char}
    (h : (rstripDot s).getLast? = some c) : c ≠ '.' := by
  unfold rstripDot at h
  rw [List.getLast?_reverse] at h
  have h2 := @head?_dropWhile_not (fun cc => cc == '.') s.reverse c h
  exact ne_of_beq_false (by simpa using h2)

theorem rstripDot_eq_self {s : Str} (h : s.getLast? ≠ some '.') :
    rstripDot s = s := by
  obtain ⟨d, hd, hdot, -⟩ := rstripDot_decomp s
  rcases hd0 : d with _ | ⟨x, d0⟩
  · rw [hd0] at hd; simpa using hd.symm
  · exfalso
    apply h
    rw [hd, hd0, List.getLast?_append_of_ne_nil (rstripDot s) (by simp)]
    obtain ⟨y, hy⟩ : ∃ y, (x :: d0).getLast? = some y :=
      ⟨(x :: d0).getLast (by simp), List.getLast?_eq_getLast _ _⟩
    rw [hy]
    have : y = '.' := by
      apply hdot
      rw [hd0]
      exact List.mem_of_mem_getLast? hy
    rw [this]

theorem rstripDot_length_eq {s : Str} (h : (rstripDot s).length = s.length) :
    rstripDot s = s := by
  obtain ⟨d, hd, -, -⟩ := rstripDot_decomp s
  have hlen := congrArg List.length hd
  simp only [List.length_append] at hlen
  have hnil : d = [] := List.length_eq_zero.1 (by omega)
  conv_rhs => rw [hd, hnil, List.append_nil]

theorem rstripDot_head? {s : Str} {c : Char} (hh : s.head? = some c)
    (hc : c ≠ '.') : (rstripDot s).head? = some c := by
  obtain ⟨d, hd, hdot, -⟩ := rstripDot_decomp s
  rcases he : rstripDot s with _ | ⟨x, r⟩
  · exfalso
    rw [he, List.nil_append] at hd
    rcases hs0 : s with _ | ⟨y, s0⟩
    · rw [hs0] at hh; simp at hh
    · have hy : y ∈ d := by rw [← hd, hs0]; simp
      rw [hs0] at hh
      simp only [List.head?_cons, Option.some_inj] at hh
      exact hc (hh ▸ hdot _ hy)
  · rw [he] at hd
    rw [hd] at hh
    simpa using hh

theorem head?_take {l : Str} {j : Nat} (h : 1 ≤ j) :
    (l.take j).head? = l.head? := by
  cases l with
  | nil => simp
  | cons a r =>
    cases j with
    | zero => omega
    | succ j0 => simp

theorem pyIdx_ofNat (len k : Nat) : pyIdx len (Int.ofNat k) = min k len := by
  unfold pyIdx
  rw [Int.ofNat_eq_natCast]
  rw [if_neg (by omega)]
  simp

theorem pyIdx_le (len : Nat) (i : Int) : pyIdx len i ≤ len := by
  unfold pyIdx
  rw [Int.ofNat_eq_natCast]
  split <;> omega

/-! ## Lemma library: the username disambiguator -/

theorem parseUsername_decomp {s u e : Str} (h : parseUsername s = some (u, e)) :
    ∃ dots rest, e = dots ++ rest ∧ (∀ c ∈ dots, c = '.') ∧
      u ++ rest ++ dots = s := by
  obtain ⟨d, hd, hdot, hdrop⟩ := rstripDot_decomp s
  rcases hs : s.head? with _ | c
  · simp only [parseUsername, hs] at h
    exact absurd h (by simp)
  · simp only [parseUsername, hs] at h
    split at h
    · exact absurd h (by simp)
    · -- the stripped/extra pair: in both branches of the length test,
      -- the extra text is `d` and the working string is `rstripDot s`
      have hpair :
          (if (rstripDot s).length != s.length
           then (s.drop (rstripDot s).length, rstripDot s)
           else (([] : Str), s)) = (d, rstripDot s) := by
        split
        · rw [← hdrop]
        · rename_i hne
          have hlen : (rstripDot s).length = s.length := by
            simpa using hne
          have hss := rstripDot_length_eq hlen
          have hdnil : d = [] := by
            have hlen2 := congrArg List.length hd
            simp only [List.length_append] at hlen2
            exact List.length_eq_zero.1 (by omega)
          rw [hdnil, hss]
      rw [hpair] at h
      split at h
      · -- an interior '..' was found at a positive index
        simp only [Option.some_inj, Prod.mk.injEq] at h
        obtain ⟨hu, he⟩ := h
        refine ⟨d, pySliceFrom (rstripDot s) (pyFind (rstripDot s) "..".data),
          he.symm, hdot, ?_⟩
        have : u ++ pySliceFrom (rstripDot s) (pyFind (rstripDot s) "..".data)
            = rstripDot s := by
          rw [← hu]
          exact List.take_append_drop _ _
        rw [this]
        exact hd.symm
      · simp only [Option.some_inj, Prod.mk.injEq] at h
        obtain ⟨hu, he⟩ := h
        refine ⟨d, [], by rw [← he, List.append_nil], hdot, ?_⟩
        rw [List.append_nil, ← hu]
        exact hd.symm

theorem parseUsername_props {s u e : Str} (h : parseUsername s = some (u, e)) :
    u ≠ [] ∧ u.head? ≠ some '.' ∧ u.getLast? ≠ some '.' ∧
    containsSub u "..".data = false := by
  have hdd : "..".data = ['.', '.'] := rfl
  rcases hs : s.head? with _ | c
  · simp only [parseUsername, hs] at h
    exact absurd h (by simp)
  · simp only [parseUsername, hs] at h
    split at h
    · exact absurd h (by simp)
    · rename_i hcdot
      rw [Bool.not_eq_true] at hcdot
      have hcne : c ≠ '.' := ne_of_beq_false hcdot
      obtain ⟨d, hd, hdot, hdrop⟩ := rstripDot_decomp s
      have hpair :
          (if (rstripDot s).length != s.length
           then (s.drop (rstripDot s).length, rstripDot s)
           else (([] : Str), s)) = (d, rstripDot s) := by
        split
        · rw [← hdrop]
        · rename_i hne
          have hlen : (rstripDot s).length = s.length := by simpa using hne
          have hss := rstripDot_length_eq hlen
          have hdnil : d = [] := by
            have hlen2 := congrArg List.length hd
            simp only [List.length_append] at hlen2
            exact List.length_eq_zero.1 (by omega)
          rw [hdnil, hss]
      rw [hpair] at h
      have hhead : (rstripDot s).head? = some c := rstripDot_head? hs hcne
      have hne_nil : rstripDot s ≠ [] := by
        intro hn; rw [hn] at hhead; simp at hhead
      have hlast : (rstripDot s).getLast? ≠ some '.' := by
        intro hl; exact rstripDot_getLast hl rfl
      split at h
      · -- an interior '..' was found at a positive index `j`
        rename_i hidx
        rcases hf : findSubAux "..".data (rstripDot s) with _ | j
        · simp only [pyFind.eq_def, hf] at hidx; norm_num at hidx
        · simp only [pyFind.eq_def, hf] at hidx
          rw [Int.ofNat_eq_natCast] at hidx
          have hj1 : 1 ≤ j := by exact_mod_cast hidx
          have hsw := findSubAux_startsWith hf
          rw [hdd] at hsw
          have hjlen := startsWith_length_le hsw
          rw [List.length_drop] at hjlen
          have hjle : j + 2 ≤ (rstripDot s).length := by
            simp only [List.length_cons, List.length_nil] at hjlen
            omega
          simp only [pyFind.eq_def, hf, Option.some_inj, Prod.mk.injEq] at h
          obtain ⟨hu, -⟩ := h
          have hu' : u = (rstripDot s).take j := by
            rw [← hu]
            unfold pySliceTo
            rw [pyIdx_ofNat, min_eq_left (by omega)]
          have hulen : u.length = j := by
            rw [hu', List.length_take]
            omega
          refine ⟨?_, ?_, ?_, ?_⟩
          · intro hn; rw [hn] at hulen; simp at hulen; omega
          · rw [hu', head?_take hj1, hhead]
            intro hcc
            exact hcne (by simpa using hcc)
          · intro hlu
            have hget : (rstripDot s)[j - 1]? = some '.' := by
              rw [List.getLast?_eq_getElem?, hulen, hu'] at hlu
              rw [List.getElem?_take_of_lt (by omega : j - 1 < j)] at hlu
              exact hlu
            have hget2 : (rstripDot s)[j]? = some '.' := (startsWith_get? hsw).1
            have hsw2 : startsWith ((rstripDot s).drop (j - 1)) ['.', '.'] = true := by
              apply get?_startsWith hget
              have : j - 1 + 1 = j := by omega
              rw [this]; exact hget2
            have := findSubAux_min hf (j - 1) (by omega)
            rw [hdd] at this
            rw [this] at hsw2
            exact absurd hsw2 (by simp)
          · by_contra hcon
            rw [Bool.not_eq_false] at hcon
            obtain ⟨i, hi⟩ := containsSub_exists hcon
            rw [hdd] at hi
            have hilen := startsWith_length_le hi
            rw [List.length_drop, hulen] at hilen
            simp only [List.length_cons, List.length_nil] at hilen
            have hij : i < j := by omega
            have hi2 : startsWith ((rstripDot s).drop i) ['.', '.'] = true := by
              apply startsWith_of_take
              show startsWith (((rstripDot s).drop i).take (j - i)) ['.', '.'] = true
              rw [← List.drop_take j i (rstripDot s), ← hu']
              exact hi
            have := findSubAux_min hf i hij
            rw [hdd] at this
            rw [this] at hi2
            exact absurd hi2 (by simp)
      · -- no interior '..' at a positive index: `u` is the stripped string
        rename_i hidx
        simp only [Option.some_inj, Prod.mk.injEq] at h
        obtain ⟨hu, -⟩ := h
        subst hu
        refine ⟨hne_nil,
          by rw [hhead]; intro hcc; exact hcne (by simpa using hcc),
          hlast, ?_⟩
        rcases hf : findSubAux "..".data (rstripDot s) with _ | j
        · simp [containsSub, hf]
        · exfalso
          simp only [pyFind.eq_def, hf] at hidx
          rw [Int.ofNat_eq_natCast] at hidx
          have hj0 : j = 0 := by omega
          subst hj0
          have hsw := findSubAux_startsWith hf
          rw [hdd] at hsw
          have hget := (startsWith_get? hsw).1
          rw [← List.head?_eq_getElem?, hhead] at hget
          exact hcne (by simpa using hget)

theorem parseUsername_self {u : Str} (hne : u ≠ []) (hh : u.head? ≠ some '.')
    (hl : u.getLast? ≠ some '.') (hdd : containsSub u "..".data = false) :
    parseUsername u = some (u, []) := by
  rcases hu : u.head? with _ | c
  · rw [List.head?_eq_none_iff] at hu
    exact absurd hu hne
  · simp only [parseUsername, hu]
    have hcne : (c == '.') = false := by
      rw [beq_eq_false_iff_ne]
      intro hc
      exact hh (by rw [hu, hc])
    rw [if_neg (by simp [hcne])]
    have hstrip : rstripDot u = u := rstripDot_eq_self hl
    rw [hstrip]
    simp only [bne_self_eq_false, Bool.false_eq_true, if_false]
    have hf : findSubAux "..".data u = none := by
      rcases hfa : findSubAux "..".data u with _ | j
      · rfl
      · have hcon : containsSub u "..".data = true := by
          unfold containsSub
          rw [hfa]
          rfl
        rw [hcon] at hdd
        exact absurd hdd (by simp)
    simp only [pyFind.eq_def, hf]
    rw [if_neg (by norm_num)]


/-! ## Claim C1 -/

/-- **C1, counterexample**: for the candidate `a..b.` — which has both
trailing dots and an interior `..` and is not rejected — the disambiguator
returns `("a", "...b")`, and `"a" ++ "...b" ≠ "a..b."`: the claimed invariant
`accepted_username + trailing_extra_text == candidate` fails. -/
theorem C1_counterexample :
    parseUsername "a..b.".data = some ("a".data, "...b".data) ∧
    "a".data ++ "...b".data ≠ "a..b.".data := by decide

/-- **C1, amended**: for every candidate that is not rejected, the extra text
splits as `extra = dots ++ rest` — the stripped trailing dots followed by the
post-`..` remainder — and the candidate is reconstructed with the two parts
interchanged: `accepted ++ rest ++ dots = candidate`.  (Hence
`accepted ++ extra = candidate` holds when the candidate lacks trailing dots
or lacks an interior `..`, but not in general.) -/
theorem C1_amended_reconstruction {s u e : Str}
    (h : parseUsername s = some (u, e)) :
    ∃ dots rest, e = dots ++ rest ∧ (∀ c ∈ dots, c = '.') ∧
      u ++ rest ++ dots = s :=
  parseUsername_decomp h

/-- Witness for C1's amended theorem at the candidate `a..b.`. -/
theorem C1_witness :
    ∃ dots rest, "...b".data = dots ++ rest ∧ (∀ c ∈ dots, c = '.') ∧
      "a".data ++ rest ++ dots = "a..b.".data :=
  C1_amended_reconstruction
    (by decide : parseUsername "a..b.".data = some ("a".data, "...b".data))

/-! ## Claim C8 -/

/-- **C8**: the username disambiguator is idempotent on its accepted output:
if a candidate disambiguates to `(u, extra)`, then running the disambiguator
on `u` returns `(u, "")`. -/
theorem C8_idempotent {s u e : Str} (h : parseUsername s = some (u, e)) :
    parseUsername u = some (u, []) := by
  obtain ⟨h1, h2, h3, h4⟩ := parseUsername_props h
  exact parseUsername_self h1 h2 h3 h4

/-- Witness for C8 at the candidate `bob.`, which disambiguates to
`("bob", ".")`. -/
theorem C8_witness : parseUsername "bob".data = some ("bob".data, []) :=
  C8_idempotent
    (by decide : parseUsername "bob.".data = some ("bob".data, ".".data))

/-! ## Claim C7 -/

theorem getElem?_some_lt {l : Str} {i : Nat} {a : Char} (h : l[i]? = some a) :
    i < l.length := by
  by_contra hc
  rw [List.getElem?_eq_none_iff.mpr (by omega)] at h
  exact absurd h (by simp)

/-- If a character does not occur in `l` after index `j`, no `getElem?`
beyond `j` can produce it. -/
theorem no_char_after {l : Str} {c : Char} (j : Nat)
    (h : (l.drop (j + 1)).all (fun x => !(x == c)) = true) :
    ∀ k, j < k → l[k]? ≠ some c := by
  intro k hk he
  have hidx : l[k]? = (l.drop (j + 1))[k - (j + 1)]? := by
    rw [List.getElem?_drop]
    congr 1
    omega
  have hmem : c ∈ l.drop (j + 1) := List.getElem?_mem (by rw [← hidx]; exact he)
  have := List.all_eq_true.1 h _ hmem
  simp at this

/-- The truncated display text ends inside an unterminated HTML character
reference: some `&` has no `;` anywhere after it. -/
def UnterminatedAmp (t : Str) : Prop :=
  ∃ j : Nat, t[j]? = some '&' ∧ ∀ k : Nat, j < k → t[k]? ≠ some ';'

theorem pySliceTo_ofNat_of_le {t : Str} {j : Nat} (h : j ≤ t.length) :
    pySliceTo t (Int.ofNat j) = t.take j := by
  unfold pySliceTo
  rw [pyIdx_ofNat, min_eq_left h]

theorem pySliceFrom_ofNat_of_le {t : Str} {j : Nat} (h : j ≤ t.length) :
    pySliceFrom t (Int.ofNat j) = t.drop j := by
  unfold pySliceFrom
  rw [pyIdx_ofNat, min_eq_left h]

/-- The retraction test of `_shorten_url`
(`amp != -1 and (close == -1 or close < amp)`) holds exactly when the
truncated text has an unterminated `&`. -/
theorem shorten_retract_iff (t : Str) :
    (pyRFind t '&' ≠ -1 ∧
      (pyRFind t ';' = -1 ∨ pyRFind t ';' < pyRFind t '&')) ↔
    UnterminatedAmp t := by
  constructor
  · rintro ⟨hamp, hclose⟩
    rcases ha : rfindAux '&' t with _ | j
    · exact absurd (by simp [pyRFind.eq_def, ha]) hamp
    · obtain ⟨haj, hano⟩ := rfindAux_last ha
      refine ⟨j, haj, ?_⟩
      intro k hk hsemi
      rcases hc : rfindAux ';' t with _ | i
      · exact rfindAux_mem_none (List.getElem?_mem hsemi) hc
      · obtain ⟨hci, hcno⟩ := rfindAux_last hc
        have hki : k ≤ i := by
          by_contra hlt
          exact hcno k (by omega) hsemi
        rcases hclose with h | h
        · simp only [pyRFind.eq_def, hc] at h
          rw [Int.ofNat_eq_natCast] at h
          omega
        · simp only [pyRFind.eq_def, hc, ha] at h
          rw [Int.ofNat_eq_natCast, Int.ofNat_eq_natCast] at h
          have : i < j := by exact_mod_cast h
          omega
  · rintro ⟨j, hj, hno⟩
    have hmem : '&' ∈ t := List.getElem?_mem hj
    rcases ha : rfindAux '&' t with _ | j'
    · exact absurd ha (rfindAux_mem_none hmem)
    · obtain ⟨haj, hano⟩ := rfindAux_last ha
      have hjj : j ≤ j' := by
        by_contra hlt
        exact hano j (by omega) hj
      refine ⟨by simp [pyRFind.eq_def, ha], ?_⟩
      rcases hc : rfindAux ';' t with _ | i
      · left; simp [pyRFind.eq_def, hc]
      · right
        obtain ⟨hci, -⟩ := rfindAux_last hc
        have hij : i ≤ j := by
          by_contra hlt
          exact hno i (by omega) hci
        have hine : i ≠ j := by
          intro he
          rw [he, hj] at hci
          exact absurd hci (by simp)
        simp only [pyRFind.eq_def, hc, ha]
        rw [Int.ofNat_eq_natCast, Int.ofNat_eq_natCast]
        exact_mod_cast (by omega : i < j')

/-- **C7, amended**: with limit `-1` or text within the limit the truncator
returns the text unchanged.  Otherwise, *for limits ≥ 3*, it truncates to the
prefix of length `limit - 3` (for limits < 3 the Python slice
`text[0:limit-3]` counts from the end instead — see the counterexample),
retracts the cut to just before the last `&` when the cut falls inside an
unterminated HTML character reference, and appends `...`; with limit 10 on
`example&amp;more` the result is `example...`, which never cuts between `&`
and its `;`. -/
theorem C7_shorten_amended (cfg : Cfg) (text : Str) :
    (cfg.maxUrlLength = -1 ∨ Int.ofNat text.length ≤ cfg.maxUrlLength →
      shortenUrl cfg text = text) ∧
    (3 ≤ cfg.maxUrlLength → cfg.maxUrlLength < Int.ofNat text.length →
      (¬ UnterminatedAmp (text.take (cfg.maxUrlLength - 3).toNat) →
        shortenUrl cfg text =
          text.take (cfg.maxUrlLength - 3).toNat ++ "...".data) ∧
      (∀ j, (text.take (cfg.maxUrlLength - 3).toNat)[j]? = some '&' →
        (∀ k, j < k →
          (text.take (cfg.maxUrlLength - 3).toNat)[k]? ≠ some '&') →
        (∀ k, j < k →
          (text.take (cfg.maxUrlLength - 3).toNat)[k]? ≠ some ';') →
        shortenUrl cfg text =
          (text.take (cfg.maxUrlLength - 3).toNat).take j ++ "...".data)) ∧
    shortenUrl ⟨10, false⟩ "example&amp;more".data = "example...".data := by
  refine ⟨?_, ?_, by decide⟩
  · intro h
    unfold shortenUrl
    rw [if_neg]
    rintro ⟨h1, h2⟩
    rcases h with h | h
    · exact h2 h
    · rw [Int.ofNat_eq_natCast] at h h1; omega
  · intro h3 hlt
    have hcond : Int.ofNat text.length > cfg.maxUrlLength ∧
        cfg.maxUrlLength ≠ -1 := ⟨hlt, by omega⟩
    have hslice : pySliceTo text (cfg.maxUrlLength - 3) =
        text.take (cfg.maxUrlLength - 3).toNat := by
      unfold pySliceTo pyIdx
      rw [Int.ofNat_eq_natCast]
      rw [if_neg (by omega)]
      rw [← List.take_take, List.take_length]
    constructor
    · intro hun
      unfold shortenUrl
      rw [if_pos hcond, hslice]
      unfold shortenCut
      rw [if_neg]
      intro hcontra
      exact hun ((shorten_retract_iff _).1 hcontra)
    · intro j hj hnoamp hnosemi
      unfold shortenUrl
      rw [if_pos hcond, hslice]
      unfold shortenCut
      rw [if_pos ((shorten_retract_iff _).2 ⟨j, hj, hnosemi⟩)]
      have hampj : rfindAux '&' (text.take (cfg.maxUrlLength - 3).toNat)
          = some j := rfindAux_spec hj (fun k hk => hnoamp k hk)
      have hjlt : j < (text.take (cfg.maxUrlLength - 3).toNat).length :=
        getElem?_some_lt hj
      simp only [pyRFind.eq_def, hampj]
      rw [pySliceTo_ofNat_of_le (Nat.le_of_lt hjlt)]

/-- **C7, counterexample**: with limit `0` on text `abcd`, the code returns
`a...` — `text[0:-3]` keeps the first character — while the claim's "prefix
of length limit−3 followed by `...`" (an empty prefix for limit < 3,
i.e. `...`) does not match. -/
theorem C7_counterexample :
    shortenUrl ⟨0, false⟩ "abcd".data = "a...".data ∧
    "a...".data ≠ "abcd".data.take ((0 : Int) - 3).toNat ++ "...".data := by
  decide

/-- Witness for C7's amended theorem: the unchanged case at limit 30, and
the retraction case on `aaaa&bcdefgh` at limit 10, whose truncation
`aaaa&bc` has an unterminated `&` at index 4, giving `aaaa...`. -/
theorem C7_witness :
    shortenUrl ⟨30, false⟩ "short".data = "short".data ∧
    shortenUrl ⟨10, false⟩ "aaaa&bcdefgh".data = "aaaa...".data := by
  constructor
  · exact (C7_shorten_amended ⟨30, false⟩ "short".data).1 (Or.inr (by decide))
  · have h := ((C7_shorten_amended ⟨10, false⟩ "aaaa&bcdefgh".data).2.1
      (by decide) (by decide)).2 4 (by decide)
      (no_char_after 4 (by decide)) (no_char_after 4 (by decide))
    simpa using h

/-! ## The scan engine's entity invariant -/

/-- Every entity collected by a scan satisfies any property established for
the entities produced by each successful match's step. -/
theorem scanSub_prop {α : Type} (matchAt : Str → Nat → Option (Nat × α))
    (step : Str → Nat → α → Option Entity × Str) (t : Str)
    (P : Entity → Prop)
    (hstep : ∀ pos n a ent rep, matchAt t pos = some (n, a) →
      step t pos a = (some ent, rep) → P ent) :
    ∀ f pos ent, ent ∈ (scanSub matchAt step t f pos).1 → P ent := by
  intro f
  induction f with
  | zero => intro pos ent h; simp [scanSub] at h
  | succ f0 ih =>
    intro pos ent h
    rcases hm : matchAt t pos with _ | ⟨n, a⟩
    · simp only [scanSub, hm] at h
      exact ih (pos + 1) ent h
    · simp only [scanSub, hm] at h
      rcases hs : step t pos a with ⟨e?, rep⟩
      rw [hs] at h
      rcases e? with _ | e
      · simp only [Option.toList_none, List.nil_append] at h
        exact ih (pos + n) ent h
      · simp only [Option.toList_some, List.singleton_append,
          List.mem_cons] at h
        rcases h with h | h
        · subst h
          exact hstep pos n a ent rep hm hs
        · exact ih (pos + n) ent h

/-- Specialization to the username pass of `parse`, in either mode: every
recorded user entity satisfies `P` provided every entity produced by
`userStep` on any scanned text does. -/
theorem parse_users_prop (cfg : Cfg) (t : Str) (b : Bool) (P : Entity → Prop)
    (hstep : ∀ t' pos n m ent rep,
      userMatchAt t' pos = some m → UserM.len m = n →
      userStep cfg t' pos m = (some ent, rep) → P ent) :
    ∀ ent ∈ (parse cfg t b).users, P ent := by
  have hpass : ∀ t' : Str, ∀ ent ∈ (subUsers cfg t').1, P ent := by
    intro t' ent h
    refine scanSub_prop _ _ t' P ?_ (t'.length + 1) 0 ent h
    intro pos n m ent' rep hm hs
    rcases hmm : userMatchAt t' pos with _ | m'
    · rw [hmm] at hm; exact absurd hm (by simp)
    · rw [hmm] at hm
      simp only [Option.map_some', Option.some_inj] at hm
      obtain ⟨hn, hm'⟩ := Prod.mk.inj hm
      exact hstep t' pos n m' ent' rep hmm hn (by rw [hm']; exact hs)
  cases b
  · intro ent h
    simp only [parse] at h
    exact hpass t ent h
  · intro ent h
    simp only [parse] at h
    exact hpass (subUrls cfg t).2 ent h

/-- Structure of an entity produced by `_parse_users`: the list-path group
was absent, the recorded name is a non-falsy disambiguator output for the
candidate `mat[1:]`, and the span (when requested) is `match.span(0)`. -/
theorem userStep_entity {cfg : Cfg} {t : Str} {pos : Nat} {m : UserM}
    {ent : Entity} {rep : Str}
    (h : userStep cfg t pos m = (some ent, rep)) :
    m.plen = none ∧ ent.1 ≠ [] ∧
    (∃ extra, parseUsername (((t.drop pos).take m.len).drop 1)
        = some (ent.1, extra)) ∧
    ent.2 = (if cfg.includeSpans then some (pos, pos + m.len) else none) := by
  simp only [userStep] at h
  split at h
  · exact absurd h (by simp)
  · rename_i hplen
    rcases hp : parseUsername (((t.drop pos).take m.len).drop 1)
      with _ | ⟨u, extra⟩
    · simp only [hp] at h
      exact absurd h (by simp)
    · simp only [hp] at h
      split at h
      · exact absurd h (by simp)
      · rename_i hue
        simp only [Prod.mk.injEq, Option.some_inj] at h
        obtain ⟨hent, -⟩ := h
        subst hent
        refine ⟨by simpa using hplen, by split <;> simpa using hue,
          ⟨extra, ?_⟩, ?_⟩
        · split <;> simpa using hp
        · split <;> simp

/-! ## Span structure of the three passes -/

theorem char_eq_of_toNat {c d : Char} (h : c.toNat = d.toNat) : c = d :=
  Char.ext (UInt32.ext h)

/-- `text[pos+k : pos+len]` is the `k`-offset tail of the match slice. -/
theorem pySub_take_drop (t : Str) (pos k len : Nat) :
    pySub t (pos + k) (pos + len) = ((t.drop pos).take len).drop k := by
  unfold pySub
  rw [List.drop_take len k (t.drop pos), List.drop_drop]
  congr 1
  omega

/-- `urlSplit` always cuts the match at one index: `pre` is a `take` and
`url` the matching `drop`. -/
theorem urlSplit_take_drop (mat : Str) :
    ∃ k, k ≤ mat.length ∧
      (urlSplit mat).1 = mat.take k ∧ (urlSplit mat).2.1 = mat.drop k := by
  simp only [urlSplit]
  split
  · exact ⟨pyIdx mat.length (pyFind mat "http".data), pyIdx_le _ _, rfl, rfl⟩
  · exact ⟨pyIdx mat.length (pyFind (pyLower mat) "www".data),
      pyIdx_le _ _, rfl, rfl⟩

/-- Span consistency of `_parse_urls`: a recorded span always delimits
exactly the recorded URL text in the scanned string. -/
theorem urlStep_span {cfg : Cfg} {t : Str} {pos : Nat} {m : UrlM}
    {u : Str} {a e : Nat} {rep : Str}
    (h : urlStep cfg t pos m = (some (u, some (a, e)), rep)) :
    pySub t a e = u := by
  simp only [urlStep] at h
  split at h
  · exact absurd h (by simp)
  · obtain ⟨k, hk, h1, h2⟩ := urlSplit_take_drop ((t.drop pos).take m.len)
    rw [h1, h2] at h
    split at h
    · simp only [Prod.mk.injEq, Option.some_inj] at h
      obtain ⟨⟨hu, ha, he⟩, -⟩ := h
      have hlen : (((t.drop pos).take m.len).take k).length = k := by
        rw [List.length_take]
        omega
      rw [← hu, ← he, ← ha, hlen]
      exact pySub_take_drop t pos k m.len
    · simp only [Prod.mk.injEq, Option.some_inj] at h
      exact absurd h.1.2 (by simp)

/-- Structure of a username match: the scanned text at the match position
starts with an at-sign, and group 1 is a nonempty run of at most 30 name
characters. -/
theorem userMatchAt_head {t : Str} {p : Nat} {m : UserM}
    (h : userMatchAt t p = some m) :
    ∃ c r, t.drop p = c :: r ∧ isAtSign c = true ∧
      m.ulen ≤ r.length ∧ 1 ≤ m.ulen := by
  unfold userMatchAt at h
  split at h
  · exact absurd h (by simp)
  · rcases hd : t.drop p with _ | ⟨c, r⟩
    · simp only [hd] at h
      exact absurd h (by simp)
    · simp only [hd] at h
      split at h
      · rename_i hat
        split at h
        · exact absurd h (by simp)
        · rename_i hk
          rw [Option.some_inj] at h
          subst h
          refine ⟨c, r, rfl, hat, ?_, ?_⟩
          · exact countWhileUpTo_le_length _ r 30
          · exact Nat.pos_of_ne_zero (by simpa using hk)
      · exact absurd h (by simp)

/-- Structure of a hashtag match: the scanned text at the match position
starts with `#` or `＃`, and the body consists of tag-first and extended
characters only. -/
theorem tagMatchAt_parts {t : Str} {p n : Nat} (h : tagMatchAt t p = some n) :
    ∃ c r, t.drop p = c :: r ∧ isTagSign c = true ∧ 1 ≤ n ∧
      n - 1 ≤ r.length ∧
      ∀ x ∈ r.take (n - 1), isTagFirst x = true ∨ isUtfChar x = true := by
  unfold tagMatchAt at h
  rcases hd : t.drop p with _ | ⟨c, r⟩
  · simp only [hd] at h
    exact absurd h (by simp)
  · simp only [hd] at h
    split at h
    · rename_i hsign
      split at h
      · exact absurd h (by simp)
      · rename_i ha0
        rw [Option.some_inj] at h
        refine ⟨c, r, rfl, hsign, by omega, ?_, ?_⟩
        · have h1 := countWhileUpTo_le_length isTagFirst r r.length
          have h2 := countWhileUpTo_le_length isUtfChar
            (r.drop (countWhileUpTo isTagFirst r r.length))
            (r.drop (countWhileUpTo isTagFirst r r.length)).length
          have h3 : (r.drop (countWhileUpTo isTagFirst r r.length)).length
              = r.length - countWhileUpTo isTagFirst r r.length :=
            List.length_drop _ _
          omega
        · intro x hx
          have hn1 : n - 1 = countWhileUpTo isTagFirst r r.length +
              countWhileUpTo isUtfChar
                (r.drop (countWhileUpTo isTagFirst r r.length))
                (r.drop (countWhileUpTo isTagFirst r r.length)).length := by
            omega
          rw [hn1, List.take_add] at hx
          rcases List.mem_append.1 hx with hx | hx
          · exact Or.inl (countWhileUpTo_take isTagFirst r r.length x hx)
          · exact Or.inr (countWhileUpTo_take isUtfChar _ _ x hx)
    · exact absurd h (by simp)

/-- Body characters of a hashtag match are never `#` or `＃`. -/
theorem tagBody_not_sign {x : Char}
    (hx : isTagFirst x = true ∨ isUtfChar x = true) :
    (x == '#') = false ∧ (x == Char.ofNat 0xFF03) = false := by
  constructor <;> rw [beq_eq_false_iff_ne] <;> intro he <;> subst he <;>
    rcases hx with hx | hx <;> exact absurd hx (by decide)

/-- Span structure of `_parse_tags`: the recorded span starts exactly at the
`#`/`＃` sign, and the spanned slice is that sign followed by the recorded
tag text. -/
theorem tagStep_span {cfg : Cfg} {t : Str} {pos n : Nat}
    {u : Str} {a e : Nat} {rep : Str}
    (hm : tagMatchAt t pos = some n)
    (h : tagStep cfg t pos n = (some (u, some (a, e)), rep)) :
    ∃ c0, isTagSign c0 = true ∧ pySub t a e = c0 :: u ∧ e = a + n := by
  obtain ⟨c, r, hd, hc, hn1, hnr, hbody⟩ := tagMatchAt_parts hm
  have hmat : (t.drop pos).take n = c :: r.take (n - 1) := by
    rw [hd]
    rcases n with _ | n0
    · omega
    · simp
  have hnosign : ∀ x ∈ r.take (n - 1),
      (x == '#') = false ∧ (x == Char.ofNat 0xFF03) = false :=
    fun x hx => tagBody_not_sign (hbody x hx)
  have hmatlen : ((t.drop pos).take n).length = n := by
    rw [hmat]
    simp only [List.length_cons, List.length_take]
    omega
  -- the rfind loop always lands on index 0 of the match
  have hfind : (if pyRFind ((t.drop pos).take n) '#' ≠ -1
      then ((some '#' : Option Char), pyRFind ((t.drop pos).take n) '#')
      else if pyRFind ((t.drop pos).take n) (Char.ofNat 0xFF03) ≠ -1
        then (some (Char.ofNat 0xFF03),
              pyRFind ((t.drop pos).take n) (Char.ofNat 0xFF03))
        else (none, pyRFind ((t.drop pos).take n) (Char.ofNat 0xFF03)))
      = (some c, 0) := by
    have hcases : c.toNat = 0x23 ∨ c.toNat = 0xFF03 := by
      have hcc := hc
      simp only [isTagSign, Bool.or_eq_true, beq_iff_eq] at hcc
      exact hcc
    rcases hcases with hcn | hcn
    · have hceq : c = '#' := char_eq_of_toNat (by simpa using hcn)
      subst hceq
      have hrf : rfindAux '#' ((t.drop pos).take n) = some 0 := by
        apply rfindAux_spec
        · rw [hmat]; simp
        · intro k hk
          rw [hmat]
          rcases k with _ | k0
          · omega
          · simp only [List.getElem?_cons_succ]
            intro hgk
            have hxk := (hnosign _ (List.getElem?_mem hgk)).1
            simp at hxk
      rw [if_pos (by simp [pyRFind.eq_def, hrf])]
      simp [pyRFind.eq_def, hrf]
    · have hceq : c = Char.ofNat 0xFF03 := char_eq_of_toNat (by simpa using hcn)
      subst hceq
      have hrf1 : rfindAux '#' ((t.drop pos).take n) = none := by
        apply rfindAux_none
        intro x hx
        rw [hmat] at hx
        rcases List.mem_cons.1 hx with hx | hx
        · subst hx; decide
        · exact ne_of_beq_false (hnosign _ hx).1
      have hrf2 : rfindAux (Char.ofNat 0xFF03) ((t.drop pos).take n)
          = some 0 := by
        apply rfindAux_spec
        · rw [hmat]; simp
        · intro k hk
          rw [hmat]
          rcases k with _ | k0
          · omega
          · simp only [List.getElem?_cons_succ]
            intro hgk
            have hxk := (hnosign _ (List.getElem?_mem hgk)).2
            simp at hxk
      rw [if_neg (by simp [pyRFind.eq_def, hrf1])]
      rw [if_pos (by simp [pyRFind.eq_def, hrf2])]
      simp [pyRFind.eq_def, hrf2]
  simp only [tagStep, hfind] at h
  have hpre : pySliceTo ((t.drop pos).take n) 0 = [] := by
    unfold pySliceTo pyIdx
    norm_num
  have htxt : pySliceFrom ((t.drop pos).take n) (0 + 1) = r.take (n - 1) := by
    unfold pySliceFrom
    have : ((0 : Int) + 1) = Int.ofNat 1 := by norm_num
    rw [this, pyIdx_ofNat, min_eq_left (by omega), hmat]
    simp
  rw [hpre, htxt] at h
  split at h
  · simp only [Prod.mk.injEq, Option.some_inj, List.length_nil,
      Nat.add_zero] at h
    obtain ⟨⟨hu, ha, he⟩, -⟩ := h
    refine ⟨c, hc, ?_, by omega⟩
    have ha' : a = pos := by omega
    have he' : e = pos + n := by omega
    rw [ha', he', ← hu]
    have h0 := pySub_take_drop t pos 0 n
    simp only [Nat.add_zero, List.drop_zero] at h0
    rw [h0, hmat]
  · simp only [Prod.mk.injEq, Option.some_inj] at h
    exact absurd h.1.2 (by simp)

/-- Span structure of `_parse_users`: the recorded span is `match.span(0)`:
it starts at the at-sign and extends over the whole candidate (including any
trailing extra text), and the recorded name is the disambiguator's output
for that candidate. -/
theorem userStep_span_struct {cfg : Cfg} {t : Str} {pos : Nat} {m : UserM}
    {u : Str} {a e : Nat} {rep : Str}
    (hm : userMatchAt t pos = some m)
    (hs : userStep cfg t pos m = (some (u, some (a, e)), rep)) :
    ∃ a0 c ex, pySub t a e = a0 :: c ∧ isAtSign a0 = true ∧
      parseUsername c = some (u, ex) ∧ e = a + 1 + c.length := by
  obtain ⟨hplen, hne, ⟨extra, hp⟩, hsp⟩ := userStep_entity hs
  obtain ⟨c, r, hd, hat, hle, h1⟩ := userMatchAt_head hm
  have hae : a = pos ∧ e = pos + m.len := by
    rcases hC : cfg.includeSpans with _ | _ <;> rw [hC] at hsp <;> simp at hsp
    obtain ⟨hx, hy⟩ := hsp
    exact ⟨by omega, by omega⟩
  have hlenm : m.len = m.ulen + 1 := by
    unfold UserM.len
    rw [hplen]
    simp
    omega
  have hmat : (t.drop pos).take m.len = c :: r.take m.ulen := by
    rw [hd, hlenm]
    simp
  have hcand : ((t.drop pos).take m.len).drop 1 = r.take m.ulen := by
    rw [hmat]
    simp
  refine ⟨c, r.take m.ulen, extra, ?_, hat, ?_, ?_⟩
  · rw [hae.1, hae.2]
    have h0 := pySub_take_drop t pos 0 m.len
    simp only [Nat.add_zero, List.drop_zero] at h0
    rw [h0, hmat]
  · rw [← hcand]
    exact hp
  · rw [hae.1, hae.2, List.length_take, min_eq_left hle, hlenm]
    omega

/-- Propagation of an entity property through the URL pass of `parse`
(whose input is the original text in both modes). -/
theorem parse_urls_prop (cfg : Cfg) (t : Str) (b : Bool) (P : Entity → Prop)
    (hstep : ∀ pos n m ent rep,
      urlMatchAt t pos = some m → UrlM.len m = n →
      urlStep cfg t pos m = (some ent, rep) → P ent) :
    ∀ ent ∈ (parse cfg t b).urls, P ent := by
  intro ent h
  have hurls : (parse cfg t b).urls = (subUrls cfg t).1 := by
    cases b <;> simp [parse]
  rw [hurls] at h
  refine scanSub_prop _ _ t P ?_ (t.length + 1) 0 ent h
  intro pos n a ent' rep hm hs
  rcases hmm : urlMatchAt t pos with _ | m'
  · rw [hmm] at hm; exact absurd hm (by simp)
  · rw [hmm] at hm
    simp only [Option.map_some', Option.some_inj] at hm
    obtain ⟨hn, hm'⟩ := Prod.mk.inj hm
    exact hstep pos n m' ent' rep hmm hn (by rw [hm']; exact hs)

/-- Propagation of an entity property through the username pass in
extraction mode (`render_html = false`), where the scanned text is the
original input. -/
theorem parse_users_prop_text (cfg : Cfg) (t : Str) (P : Entity → Prop)
    (hstep : ∀ pos n m ent rep,
      userMatchAt t pos = some m → UserM.len m = n →
      userStep cfg t pos m = (some ent, rep) → P ent) :
    ∀ ent ∈ (parse cfg t false).users, P ent := by
  intro ent h
  have husers : (parse cfg t false).users = (subUsers cfg t).1 := by
    simp [parse]
  rw [husers] at h
  refine scanSub_prop _ _ t P ?_ (t.length + 1) 0 ent h
  intro pos n a ent' rep hm hs
  rcases hmm : userMatchAt t pos with _ | m'
  · rw [hmm] at hm; exact absurd hm (by simp)
  · rw [hmm] at hm
    simp only [Option.map_some', Option.some_inj] at hm
    obtain ⟨hn, hm'⟩ := Prod.mk.inj hm
    exact hstep pos n m' ent' rep hmm hn (by rw [hm']; exact hs)

/-- Propagation of an entity property through the hashtag pass in
extraction mode. -/
theorem parse_tags_prop_text (cfg : Cfg) (t : Str) (P : Entity → Prop)
    (hstep : ∀ pos n ent rep,
      tagMatchAt t pos = some n →
      tagStep cfg t pos n = (some ent, rep) → P ent) :
    ∀ ent ∈ (parse cfg t false).tags, P ent := by
  intro ent h
  have htags : (parse cfg t false).tags = (subTags cfg t).1 := by
    simp [parse]
  rw [htags] at h
  refine scanSub_prop _ _ t P ?_ (t.length + 1) 0 ent h
  intro pos n a ent' rep hm hs
  rcases hmm : tagMatchAt t pos with _ | n'
  · rw [hmm] at hm; exact absurd hm (by simp)
  · rw [hmm] at hm
    simp only [Option.map_some', Option.some_inj] at hm
    obtain ⟨hn, ha⟩ := Prod.mk.inj hm
    subst hn
    exact hstep pos n' ent' rep hmm (by rw [ha]; exact hs)

/-! ## Claim C2 -/

/-- **C2, counterexample**: parsing `#a` with spans records the hashtag
entity `a` with span `(0, 2)`, but `text[0:2]` is `#a`, not `a`: the span
covers the `#` sign while the stored text omits it, so
`text[start:end] == entity_text` fails. -/
theorem C2_counterexample :
    (parse ⟨30, true⟩ "#a".data false).tags = [("a".data, some (0, 2))] ∧
    pySub "#a".data 0 2 ≠ "a".data := by decide

/-- **C2, amended**: relative to the text the pass scanned (the original
input for the URL pass in either mode, and for all passes when
`render_html = false`): a URL span delimits exactly the stored URL text; a
hashtag span delimits the `#`/`＃` sign followed by the stored tag text; a
username span delimits the at-sign followed by the *untrimmed* candidate —
a string that the disambiguator maps to the stored name plus trailing extra
text.  (When `render_html = true` the username/hashtag passes scan rewritten
text, so their spans are offsets into that intermediate text instead.) -/
theorem C2_spans_amended :
    (∀ (cfg : Cfg) (t : Str) (b : Bool) (u : Str) (a e : Nat),
      (u, some (a, e)) ∈ (parse cfg t b).urls → pySub t a e = u) ∧
    (∀ (cfg : Cfg) (t : Str) (u : Str) (a e : Nat),
      (u, some (a, e)) ∈ (parse cfg t false).users →
      ∃ a0 c ex, pySub t a e = a0 :: c ∧ isAtSign a0 = true ∧
        parseUsername c = some (u, ex)) ∧
    (∀ (cfg : Cfg) (t : Str) (u : Str) (a e : Nat),
      (u, some (a, e)) ∈ (parse cfg t false).tags →
      ∃ c0, isTagSign c0 = true ∧ pySub t a e = c0 :: u) := by
  refine ⟨?_, ?_, ?_⟩
  · intro cfg t b u a e h
    refine parse_urls_prop cfg t b
      (fun ent => ∀ a' e', ent.2 = some (a', e') → pySub t a' e' = ent.1)
      ?_ (u, some (a, e)) h a e rfl
    intro pos n m ent rep hm hn hs a' e' hsp
    rcases ent with ⟨u', sp⟩
    simp only at hsp
    subst hsp
    exact urlStep_span hs
  · intro cfg t u a e h
    refine parse_users_prop_text cfg t
      (fun ent => ∀ a' e', ent.2 = some (a', e') →
        ∃ a0 c ex, pySub t a' e' = a0 :: c ∧ isAtSign a0 = true ∧
          parseUsername c = some (ent.1, ex))
      ?_ (u, some (a, e)) h a e rfl
    intro pos n m ent rep hm hn hs a' e' hsp
    rcases ent with ⟨u', sp⟩
    simp only at hsp
    subst hsp
    obtain ⟨a0, c, ex, h1, h2, h3, -⟩ := userStep_span_struct hm hs
    exact ⟨a0, c, ex, h1, h2, h3⟩
  · intro cfg t u a e h
    refine parse_tags_prop_text cfg t
      (fun ent => ∀ a' e', ent.2 = some (a', e') →
        ∃ c0, isTagSign c0 = true ∧ pySub t a' e' = c0 :: ent.1)
      ?_ (u, some (a, e)) h a e rfl
    intro pos n ent rep hm hs a' e' hsp
    rcases ent with ⟨u', sp⟩
    simp only at hsp
    subst hsp
    obtain ⟨c0, h1, h2, -⟩ := tagStep_span hm hs
    exact ⟨c0, h1, h2⟩

/-- Witness for C2's amended theorem: the URL span of `www.ab.com`, the
username span of `@bob.` and the hashtag span of `#a`. -/
theorem C2_witness :
    pySub "www.ab.com".data 0 10 = "www.ab.com".data ∧
    (∃ a0 c ex, pySub "@bob.".data 0 5 = a0 :: c ∧ isAtSign a0 = true ∧
      parseUsername c = some ("bob".data, ex)) ∧
    (∃ c0, isTagSign c0 = true ∧ pySub "#a".data 0 2 = c0 :: "a".data) :=
  ⟨C2_spans_amended.1 ⟨30, true⟩ "www.ab.com".data false "www.ab.com".data
     0 10 (by decide),
   C2_spans_amended.2.1 ⟨30, true⟩ "@bob.".data "bob".data 0 5 (by decide),
   C2_spans_amended.2.2 ⟨30, true⟩ "#a".data "a".data 0 2 (by decide)⟩

/-! ## Claim C3 -/

/-- **C3, counterexample**: parsing `@bob.` with spans records
`("bob", (0, 5))` — the span is `match.span(0)` and its end covers the
trailing `.`, while the claim requires the span to end after `@bob`
(end `4 = 0 + 1 + len "bob"`). -/
theorem C3_counterexample :
    (parse ⟨30, true⟩ "@bob.".data false).users =
      [("bob".data, some (0, 5))] ∧
    (5 : Nat) ≠ 0 + 1 + "bob".data.length := by decide

/-- **C3, amended**: a recorded username span starts at the at-sign but
extends over the *entire* matched candidate: its end is
`start + 1 + length(candidate)`, where the candidate is the untrimmed text
whose disambiguation yields the stored name plus the trailing extra text —
the span is NOT shortened to the accepted username. -/
theorem C3_username_span_amended (cfg : Cfg) (t : Str) (u : Str) (a e : Nat)
    (h : (u, some (a, e)) ∈ (parse cfg t false).users) :
    ∃ a0 c ex, pySub t a e = a0 :: c ∧ isAtSign a0 = true ∧
      parseUsername c = some (u, ex) ∧ e = a + 1 + c.length := by
  refine parse_users_prop_text cfg t
    (fun ent => ∀ a' e', ent.2 = some (a', e') →
      ∃ a0 c ex, pySub t a' e' = a0 :: c ∧ isAtSign a0 = true ∧
        parseUsername c = some (ent.1, ex) ∧ e' = a' + 1 + c.length)
    ?_ (u, some (a, e)) h a e rfl
  intro pos n m ent rep hm hn hs a' e' hsp
  rcases ent with ⟨u', sp⟩
  simp only at hsp
  subst hsp
  exact userStep_span_struct hm hs

/-- Witness for C3's amended theorem at `@bob.`: the span `(0, 5)` covers
`@` plus the candidate `bob.`, whose disambiguation is `("bob", ".")`. -/
theorem C3_witness :
    ∃ a0 c ex, pySub "@bob.".data 0 5 = a0 :: c ∧ isAtSign a0 = true ∧
      parseUsername c = some ("bob".data, ex) ∧ 5 = 0 + 1 + c.length :=
  C3_username_span_amended ⟨30, true⟩ "@bob.".data "bob".data 0 5 (by decide)

/-! ## Claim C10 -/

/-- **C10**: every username recorded by `parse` — in either mode, with or
without spans — is non-empty, does not begin or end with `.`, and contains
no `..`. -/
theorem C10_recorded_username_invariants (cfg : Cfg) (t : Str) (b : Bool)
    (u : Str) (sp : Option (Nat × Nat))
    (h : (u, sp) ∈ (parse cfg t b).users) :
    u ≠ [] ∧ u.head? ≠ some '.' ∧ u.getLast? ≠ some '.' ∧
    containsSub u "..".data = false := by
  refine parse_users_prop cfg t b
    (fun ent => ent.1 ≠ [] ∧ ent.1.head? ≠ some '.' ∧
      ent.1.getLast? ≠ some '.' ∧ containsSub ent.1 "..".data = false)
    ?_ (u, sp) h
  intro t' pos n m ent rep hm hn hs
  obtain ⟨-, -, ⟨extra, hp⟩, -⟩ := userStep_entity hs
  exact parseUsername_props hp

/-! ## Claim C9 -/

/-- At-signs are not space-set characters. -/
theorem atSign_not_space {a : Char} (h : isAtSign a = true) :
    isSpaceSet a = false := by
  simp only [isAtSign, Bool.or_eq_true, beq_iff_eq] at h
  simp only [isSpaceSet, inR]
  rcases h with h | h <;> rw [h] <;> decide

/-- `dropWhile` strips exactly an all-`p` prefix when the remainder does not
begin with a `p`-character. -/
theorem dropWhile_append_all {p : Char → Bool} {sp rest : Str}
    (hsp : ∀ c ∈ sp, p c = true)
    (hr : ∀ c, rest.head? = some c → p c = false) :
    (sp ++ rest).dropWhile p = rest := by
  induction sp with
  | nil =>
    simp only [List.nil_append]
    cases rest with
    | nil => rfl
    | cons c r =>
      rw [List.dropWhile_cons, if_neg]
      rw [hr c rfl]
      simp
  | cons a s ih =>
    rw [List.cons_append, List.dropWhile_cons, if_pos (by rw [hsp a (by simp)])]
    exact ih (fun c hc => hsp c (by simp [hc]))

/-- The reply field of both modes is the normalized reply match on the raw
input text, independent of the three passes and the configuration. -/
theorem parse_reply_eq (cfg : Cfg) (t : Str) (b : Bool) :
    (parse cfg t b).reply = normReply (replyMatch t) := by
  cases b <;> simp [parse]

/-- The specification-level characterization of the reply capture: the text
decomposes as an all-space prefix, an at-sign, the 1-to-20 word-character
username taken greedily, and the rest. -/
def ReplySpec (t u : Str) : Prop :=
  ∃ sp a r, t = sp ++ a :: (u ++ r) ∧ (∀ c ∈ sp, isSpaceSet c = true) ∧
    isAtSign a = true ∧ (∀ c ∈ u, isReplyWord c = true) ∧
    1 ≤ u.length ∧ u.length ≤ 20 ∧
    (u.length = 20 ∨ ∀ c, r.head? = some c → isReplyWord c = false)

/-- **C9**: for every input and configuration, in either mode, the reply
field is `some u` exactly when the raw input consists of space-set
characters, an at-sign, the greedily captured 1-to-20 word-character
username `u`, and arbitrary remaining text; in particular
`@reply_target hi!` yields the reply `reply_target`. -/
theorem C9_reply_characterization :
    (∀ (cfg : Cfg) (t : Str) (b : Bool) (u : Str),
      (parse cfg t b).reply = some u ↔ ReplySpec t u) ∧
    (∀ (cfg : Cfg) (b : Bool),
      (parse cfg "@reply_target hi!".data b).reply
        = some "reply_target".data) := by
  constructor
  · intro cfg t b u
    rw [parse_reply_eq]
    constructor
    · intro h
      have hrm : replyMatch t = some u := by
        rcases hr : replyMatch t with _ | v
        · simp only [normReply, hr] at h
          exact absurd h (by simp)
        · simp only [normReply, hr] at h
          split at h
          · exact absurd h (by simp)
          · rw [Option.some_inj] at h
            subst h
            rfl
      rcases hrest : t.dropWhile isSpaceSet with _ | ⟨c, r2⟩
      · simp only [replyMatch, hrest] at hrm
        exact absurd hrm (by simp)
      · simp only [replyMatch, hrest] at hrm
        split at hrm
        · rename_i hat
          split at hrm
          · exact absurd hrm (by simp)
          · rename_i hk0
            rw [Option.some_inj] at hrm
            have hk1 : 1 ≤ countWhileUpTo isReplyWord r2 20 :=
              Nat.pos_of_ne_zero (by simpa using hk0)
            have hkr : countWhileUpTo isReplyWord r2 20 ≤ r2.length :=
              countWhileUpTo_le_length _ _ _
            refine ⟨t.takeWhile isSpaceSet, c,
              r2.drop (countWhileUpTo isReplyWord r2 20), ?_, ?_, hat, ?_,
              ?_, ?_, ?_⟩
            · rw [← hrm, List.take_append_drop]
              rw [← hrest, List.takeWhile_append_dropWhile]
            · intro x hx
              exact List.mem_takeWhile_imp hx
            · intro x hx
              rw [← hrm] at hx
              exact countWhileUpTo_take isReplyWord r2 20 x hx
            · rw [← hrm, List.length_take]
              omega
            · rw [← hrm, List.length_take]
              have := countWhileUpTo_le_bound isReplyWord r2 20
              omega
            · rcases Nat.lt_or_ge (countWhileUpTo isReplyWord r2 20) 20
                with hlt | hge
              · right
                intro x hx
                refine countWhileUpTo_next isReplyWord r2 20 hlt x ?_
                exact hx
              · left
                rw [← hrm, List.length_take]
                have := countWhileUpTo_le_bound isReplyWord r2 20
                omega
        · exact absurd hrm (by simp)
    · rintro ⟨sp, a, r, ht, hsp, hat, hword, h1, h20, hmax⟩
      have hdw : t.dropWhile isSpaceSet = a :: (u ++ r) := by
        rw [ht]
        exact dropWhile_append_all hsp
          (fun c hc => by
            rw [List.head?_cons, Option.some_inj] at hc
            rw [← hc]
            exact atSign_not_space hat)
      have hcount : countWhileUpTo isReplyWord (u ++ r) 20 = u.length :=
        countWhileUpTo_spec isReplyWord u r 20 hword h20 (by
          rcases hmax with h | h
          · exact Or.inl h
          · exact Or.inr h)
      simp only [replyMatch, hdw]
      rw [if_pos hat, hcount]
      rw [if_neg (by intro hx; rw [beq_iff_eq] at hx; omega)]
      rw [List.take_left]
      simp only [normReply]
      rw [if_neg (by intro hx; rw [List.isEmpty_iff] at hx; subst hx; simp at h1)]
  · intro cfg b
    rw [parse_reply_eq]
    decide

/-- Witness for C9: applying the characterization backwards at
`  @ab cd` (space, at-sign, username `ab`, remainder ` cd`). -/
theorem C9_witness :
    (parse defaultCfg " @ab cd".data true).reply = some "ab".data :=
  (C9_reply_characterization.1 defaultCfg " @ab cd".data true "ab".data).mpr
    ⟨[' '], '@', " cd".data, by decide, by decide, by decide, by decide,
     by decide, by decide,
     Or.inr (fun c hc => by
       have h0 : (" cd".data).head? = some ' ' := rfl
       rw [h0, Option.some_inj] at hc
       rw [← hc]
       decide)⟩

/-! ## Claim C4 -/

/-- **C4, counterexample**: with spans enabled on `@bob #x`, extraction mode
records the hashtag span against the original text, while HTML mode scans
the username pass's rewritten output, so the recorded tags differ — the two
modes' lists are not element-for-element identical. -/
theorem C4_counterexample :
    (parse ⟨30, true⟩ "@bob #x".data false).tags ≠
      (parse ⟨30, true⟩ "@bob #x".data true).tags := by decide

/-- **C4, amended**: with `render_html = false` the `html` field is `none`,
and the `reply` and `urls` fields are identical to HTML mode (the URL pass
scans the original text in both modes); the `users` and `tags` lists may
differ, because in HTML mode those passes scan the previous pass's rewritten
output. -/
theorem C4_text_mode_amended (cfg : Cfg) (t : Str) :
    (parse cfg t false).html = none ∧
    (parse cfg t false).reply = (parse cfg t true).reply ∧
    (parse cfg t false).urls = (parse cfg t true).urls := by
  refine ⟨by simp [parse], by simp [parse], by simp [parse]⟩

/-! ## Claim C5 -/

/-- **C5**: any URL match whose captured domain (`group(5)`) has exactly 5
characters, ends case-insensitively in `.com`/`.org`/`.net` and is not one
of the six allowlisted one-letter domains is rejected: no entity is recorded
and the matched text passes through unmodified; in particular parsing
`www.o.com` yields no URLs in either mode. -/
theorem urlStep_rejects_www_o_com (cfg : Cfg) :
    urlStep cfg "www.o.com".data 0 ⟨0, 4, 5, 0, 0⟩ =
      (none, ("www.o.com".data.drop 0).take (UrlM.len ⟨0, 4, 5, 0, 0⟩)) := by
  simp only [urlStep]
  rw [if_pos (by decide)]

theorem C5_one_letter_domain_rejected :
    (∀ (cfg : Cfg) (t : Str) (pos : Nat) (m : UrlM),
      ((t.drop (pos + m.preLen + m.schemeLen)).take m.domLen).length = 5 →
      pyLower (pySliceFrom
          ((t.drop (pos + m.preLen + m.schemeLen)).take m.domLen) (-4)) ∈
        [".com".data, ".org".data, ".net".data] →
      pyLower ((t.drop (pos + m.preLen + m.schemeLen)).take m.domLen) ∉
        ianaOneLetterDomains →
      urlStep cfg t pos m = (none, (t.drop pos).take m.len)) ∧
    (∀ (cfg : Cfg) (b : Bool), (parse cfg "www.o.com".data b).urls = []) := by
  constructor
  · intro cfg t pos m h5 hsuf hiana
    have hrej : urlDomainRejected
        ((t.drop (pos + m.preLen + m.schemeLen)).take m.domLen) = true := by
      unfold urlDomainRejected
      rw [Bool.or_eq_true]
      right
      rw [Bool.and_eq_true, Bool.and_eq_true]
      refine ⟨⟨by simp [h5], ?_⟩, ?_⟩
      · exact List.elem_eq_true_of_mem hsuf
      · simpa using hiana
    simp only [urlStep, hrej, if_true]
  · intro cfg b
    have hurls : (parse cfg "www.o.com".data b).urls =
        (subUrls cfg "www.o.com".data).1 := by
      cases b <;> simp [parse]
    rw [hurls]
    rw [List.eq_nil_iff_forall_not_mem]
    intro ent h
    refine scanSub_prop _ _ _ (fun _ => False) ?_ _ 0 ent h
    intro pos n a ent' rep hm hs
    rcases hmm : urlMatchAt "www.o.com".data pos with _ | m'
    · rw [hmm] at hm; exact absurd hm (by simp)
    · have hrejstep : urlStep cfg "www.o.com".data pos m' =
          (none, ("www.o.com".data.drop pos).take m'.len) := by
        rcases eq_or_ne pos 0 with h0 | h0
        · subst h0
          have he : urlMatchAt "www.o.com".data 0 =
              some ⟨0, 4, 5, 0, 0⟩ := by decide
          rw [he, Option.some_inj] at hmm
          rw [← hmm]
          exact urlStep_rejects_www_o_com cfg
        · exfalso
          have hnone : urlMatchAt "www.o.com".data pos = none := by
            rcases Nat.lt_or_ge pos 9 with hlt | hge
            · interval_cases pos
              · exact absurd rfl h0
              all_goals decide
            · unfold urlMatchAt
              have hd : "www.o.com".data.drop pos = [] :=
                List.drop_eq_nil_of_le (by simpa using hge)
              rw [hd]
              have hp0 : (pos == 0) = false := by
                rw [beq_eq_false_iff_ne]; omega
              simp [hp0]
          rw [hnone] at hmm
          exact absurd hmm (by simp)
      rw [hmm] at hm
      simp only [Option.map_some', Option.some_inj] at hm
      obtain ⟨-, hm'⟩ := Prod.mk.inj hm
      rw [← hm'] at hs
      rw [hrejstep] at hs
      exact absurd hs (by simp)

/-- Witness for C5's rejection rule: the match of `www.o.com` itself. -/
theorem C5_witness :
    urlStep defaultCfg "www.o.com".data 0 ⟨0, 4, 5, 0, 0⟩ =
      (none, ("www.o.com".data.drop 0).take (UrlM.len ⟨0, 4, 5, 0, 0⟩)) :=
  C5_one_letter_domain_rejected.1 defaultCfg "www.o.com".data 0 ⟨0, 4, 5, 0, 0⟩
    (by decide) (by decide) (by decide)

/-! ## Claim C6 -/

/-- **C6, counterexample**: on `wwww.ab.com` the regex matches with
pre-character `w` and scheme `www.` at index 1, but `mat.lower().find('www')`
lands on index 0 — the recorded entity is the whole match `wwww.ab.com`
(not the matched substring without the pre-character) and the span `(0, 11)`
includes the pre-character instead of excluding it. -/
theorem C6_counterexample :
    (parse ⟨30, true⟩ "wwww.ab.com".data false).urls =
      [("wwww.ab.com".data, some (0, 11))] ∧
    "wwww.ab.com".data ≠ "www.ab.com".data := by decide

/-- **C6, amended**: for an accepted URL match whose text contains no
(case-sensitive) `http` and whose lowercased text contains `www`, the split
point is the first occurrence of `www` in the lowercased match: the stored
entity is the match from that index on, the rendering URL is `https://`
prepended to it, and the span starts at that index — which can differ from
the scheme position and include the pre-character (e.g. a `w` directly
before `www.`). -/
theorem C6_www_branch (cfg : Cfg) (t : Str) (pos : Nat) (m : UrlM)
    (mat url : Str) (a b : Nat) (rep : Str) (w : Nat)
    (hmat : mat = (t.drop pos).take m.len)
    (hstep : urlStep cfg t pos m = (some (url, some (a, b)), rep))
    (hhttp : pyFind mat "http".data = -1)
    (hwww : pyFind (pyLower mat) "www".data = Int.ofNat w)
    (hw : w ≤ mat.length) :
    urlSplit mat = (mat.take w, mat.drop w, "https://".data ++ mat.drop w) ∧
    url = mat.drop w ∧ a = pos + w ∧ b = pos + m.len := by
  have hsplit : urlSplit mat =
      (mat.take w, mat.drop w, "https://".data ++ mat.drop w) := by
    simp only [urlSplit, hhttp, hwww]
    rw [if_neg (by norm_num)]
    rw [pySliceTo_ofNat_of_le hw, pySliceFrom_ofNat_of_le hw]
  refine ⟨hsplit, ?_⟩
  subst hmat
  simp only [urlStep] at hstep
  split at hstep
  · exact absurd hstep (by simp)
  · rw [hsplit] at hstep
    split at hstep
    · simp only [Prod.mk.injEq, Option.some_inj] at hstep
      obtain ⟨⟨hu, ha, hb⟩, -⟩ := hstep
      have hlen : (((t.drop pos).take m.len).take w).length = w := by
        rw [List.length_take]
        omega
      refine ⟨hu.symm, ?_, by omega⟩
      rw [← ha, hlen]
    · simp only [Prod.mk.injEq, Option.some_inj] at hstep
      exact absurd hstep.1.2 (by simp)

/-- Witness for C6's amended theorem: the match of ` www.ab.com` (space
pre-character), where `w = 1` and everything lines up with the scheme. -/
theorem C6_witness :
    urlSplit " www.ab.com".data =
      (" www.ab.com".data.take 1, " www.ab.com".data.drop 1,
        "https://".data ++ " www.ab.com".data.drop 1) ∧
    "www.ab.com".data = " www.ab.com".data.drop 1 ∧
    (1 : Nat) = 0 + 1 ∧ (11 : Nat) = 0 + UrlM.len ⟨1, 4, 6, 0, 0⟩ :=
  C6_www_branch ⟨30, true⟩ " www.ab.com".data 0 ⟨1, 4, 6, 0, 0⟩
    " www.ab.com".data "www.ab.com".data 1 11
    " <a href=\"https://www.ab.com\">www.ab.com</a>".data 1
    (by decide) (by decide) (by decide) (by decide) (by decide)

/-- Witness for C10: parsing `@bob.` records the username `bob`, which
satisfies all four invariants. -/
theorem C10_witness :
    ("bob".data, (none : Option (Nat × Nat))) ∈
      (parse defaultCfg "@bob.".data false).users ∧
    ("bob".data ≠ [] ∧ "bob".data.head? ≠ some '.' ∧
      "bob".data.getLast? ≠ some '.' ∧
      containsSub "bob".data "..".data = false) :=
  ⟨by decide,
   C10_recorded_username_invariants defaultCfg "@bob.".data false "bob".data
     none (by decide)⟩

end Itp
